import Mathlib

/-!
Verification of the difeth crawler (src/crawl.py, src/cache.py,
src/copy_diffs.py, src/analyze_diffs.py) against its specification.

The Python code is shallowly embedded: texts are `List Char`, line lists are
`List (List Char)`, the filesystem is an explicit association structure, and
network / parsing collaborators are oracles passed as parameters.  The diff
engine (`compute_diff`, which the source delegates to Python's
`difflib.unified_diff` over `str.splitlines(keepends=True)`) is embedded in
full: `SequenceMatcher` with autojunk, `find_longest_match` including the
j2len inner loop and the extension loops, `get_matching_blocks`,
`get_opcodes`, `get_grouped_opcodes` and the unified-diff rendering.
-/

namespace Difeth

/-- Slice `l[lo:hi]` of a list, Python style. -/
def seg (l : List α) (lo hi : Nat) : List α := (l.drop lo).take (hi - lo)

theorem seg_zero_length (l : List α) : seg l 0 l.length = l := by
  simp [seg]

theorem seg_self (l : List α) (i : Nat) : seg l i i = [] := by
  simp [seg]

theorem seg_split (l : List α) {lo mid hi : Nat} (h1 : lo ≤ mid) (h2 : mid ≤ hi) :
    seg l lo hi = seg l lo mid ++ seg l mid hi := by
  unfold seg
  rw [show hi - lo = (mid - lo) + (hi - mid) from by omega, List.take_add]
  congr 2
  rw [List.drop_drop]
  congr 1
  omega

theorem seg_length_of_le {l : List α} {lo hi : Nat} (h2 : hi ≤ l.length) :
    (seg l lo hi).length = hi - lo := by
  simp [seg]
  omega

theorem seg_getElem? (l : List α) (lo hi t : Nat) :
    (seg l lo hi)[t]? = if t < hi - lo then l[lo + t]? else none := by
  unfold seg
  rw [List.getElem?_take]
  by_cases h : t < hi - lo
  · rw [if_pos h, if_pos h, List.getElem?_drop]
  · rw [if_neg h, if_neg h]

/-- Two slices of the same width whose elements agree pointwise are equal. -/
theorem seg_congr {a b : List α} {i j n : Nat}
    (h : ∀ t < n, a[i + t]? = b[j + t]?) :
    seg a i (i + n) = seg b j (j + n) := by
  apply List.ext_getElem?
  intro t
  rw [seg_getElem?, seg_getElem?]
  by_cases ht : t < n
  · simp only [show i + n - i = n from by omega, show j + n - j = n from by omega,
      if_pos ht]
    exact h t ht
  · simp only [show i + n - i = n from by omega, show j + n - j = n from by omega,
      if_neg ht]

/-! ### Python `str.splitlines(keepends=True)`

`crawl.compute_diff` feeds `a_src.splitlines(keepends=True)` to
`difflib.unified_diff`.  Python splits on the universal line-boundary set
(and treats `"\r\n"` as a single boundary). -/

/-- The line-break characters of Python's `str.splitlines`. -/
def isLineBreak (c : Char) : Bool :=
  c == '\n' || c == '\r' || c == '\x0b' || c == '\x0c' ||
  c == '\x1c' || c == '\x1d' || c == '\x1e' || c == '\x85' ||
  c == ' ' || c == ' '

/-- Worker for `splitlinesKE`; `acc` holds the current line, reversed.
A `'\r'` followed by `'\n'` ends the line with both characters. -/
def slAux : List Char → List Char → List (List Char)
  | acc, [] => if acc = [] then [] else [acc.reverse]
  | acc, '\r' :: '\n' :: rest => (acc.reverse ++ ['\r', '\n']) :: slAux [] rest
  | acc, c :: rest =>
    if isLineBreak c then (acc.reverse ++ [c]) :: slAux [] rest
    else slAux (c :: acc) rest

/-- `s.splitlines(keepends=True)` on a text given as a character list. -/
def splitlinesKE (s : List Char) : List (List Char) := slAux [] s

set_option maxHeartbeats 1000000 in
theorem slAux_flatten (acc s) : (slAux acc s).flatten = acc.reverse ++ s := by
  induction acc, s using slAux.induct with
  | case1 => rw [slAux.eq_1]; simp
  | case2 acc h => rw [slAux.eq_1, if_neg h]; simp
  | case3 acc rest ih => rw [slAux.eq_2]; simp [ih]
  | case4 acc c rest hg hlb ih =>
    rw [slAux.eq_3 acc c rest hg, if_pos hlb]
    simp [ih]
  | case5 acc c rest hg hlb ih =>
    rw [slAux.eq_3 acc c rest hg, if_neg hlb]
    simpa using ih

theorem splitlinesKE_flatten (s : List Char) : (splitlinesKE s).flatten = s := by
  simpa using slAux_flatten [] s

theorem splitlinesKE_injective {a b : List Char}
    (h : splitlinesKE a = splitlinesKE b) : a = b := by
  have := splitlinesKE_flatten a
  rw [h, splitlinesKE_flatten] at this
  exact this.symm

/-! ### `cache.py`: the memoizing persistent cache

`pickle_cache_witness(var_fn, var_p, var_check, hook)` is embedded with the
pickle file's state made explicit: `store = none` means the file `var_p` does
not exist, `some v` means it holds the pickled value `v`.  `enabled = false`
is the `var_p is None` branch.  `fval` is the (pure) result of running
`var_fn`; `fCalls` counts invocations of `var_fn`, `hookCalls` invocations of
`hook`, and `wrote` records whether `pickle.dump` ran. -/

structure CacheCall (V : Type) where
  result : V
  store : Option V
  fCalls : Nat
  hookCalls : Nat
  wrote : Bool
deriving DecidableEq

/-- One call of `cache.pickle_cache_witness`. -/
def pickle_cache_witness (enabled : Bool) (fval : V) (check : V → Bool)
    (hasHook : Bool) (store : Option V) : CacheCall V :=
  if !enabled then
    ⟨fval, store, 1, 0, false⟩
  else
    match store with
    | some v =>
      if check v then ⟨v, some v, 0, if hasHook then 1 else 0, false⟩
      else ⟨fval, some fval, 1, 0, true⟩
    | none => ⟨fval, some fval, 1, 0, true⟩

/-- One call of `cache.cache_func_and_arg`'s wrapped function for a fixed
argument.  `store` is the state of the pickle file keyed by the function name
and md5 of the argument; returns (result, new store, invocations of `func`). -/
def cache_func_and_arg (fval : V) (store : Option V) : V × Option V × Nat :=
  match store with
  | some v => (v, some v, 0)
  | none => (fval, some fval, 1)

/-! ### `crawl.fetch`: bounded retry

`_fetch` performs `SESSION.get(url)` + `raise_for_status()`.  Its failure
modes are the exceptions its libraries raise: OpenSSL's `SSL.Error` and the
`requests.exceptions.RequestException` family (which includes the
`HTTPError` that `raise_for_status` raises for every non-2xx status).  Both
are caught by `fetch`'s `except` clause.  An attempt is an oracle value:
`.ok text` or `.error e`. -/

inductive PyExc where
  /-- `OpenSSL.SSL.Error`. -/
  | opensslError : PyExc
  /-- A `requests.exceptions.RequestException` that is not an `HTTPError`
  (connection-level failure, timeout, ...). -/
  | requestsConnError : PyExc
  /-- `requests.exceptions.HTTPError` raised by `raise_for_status()` for a
  response with the given non-2xx status code. -/
  | httpError (status : Nat) : PyExc
deriving DecidableEq

/-- The retry loop of `crawl.fetch`, returning the result together with the
number of attempts actually made.  `attempts i` is the outcome of the `i`-th
call of `_fetch`.  All `PyExc` outcomes are caught and retried; when the loop
exhausts `nb_attempts` attempts the function logs and returns `""`. -/
def fetchLoop (attempts : Nat → Except PyExc String) : Nat → Nat → String × Nat
  | 0, i => ("", i)
  | n + 1, i =>
    match attempts i with
    | .ok s => (s, i + 1)
    | .error _ => fetchLoop attempts n (i + 1)

/-- `crawl.fetch(url, nb_attempts)`, with the network abstracted as the
attempt oracle; the source's default for `nb_attempts` is 5. -/
def fetch (attempts : Nat → Except PyExc String) (nb_attempts : Nat) :
    String × Nat :=
  fetchLoop attempts nb_attempts 0

/-! ### `crawl.extract_code` and the document extractor

The HTML parsing collaborator (BeautifulSoup) is abstracted as the oracle
`findEditor : content ↦ text of the element with id "editor", if any`.
`extract_code` fetches the address page, queries the extractor and strips
`'\r'`; if the extractor finds nothing it raises
`ValueError("Solidity code not found for: <address>")`. -/

/-- `soli_code.getText().replace("\r", "")`. -/
def stripCR (s : List Char) : List Char := s.filter (fun c => c ≠ '\r')

/-- The body of `crawl.extract_code` after the page content has been
fetched. -/
def extract_code_of_content (findEditor : String → Option (List Char))
    (address : String) (content : String) : Except String (List Char) :=
  match findEditor content with
  | none => .error ("Solidity code not found for: " ++ address)
  | some t => .ok (stripCR t)

/-- `crawl.extract_code` composed with the fetch layer: the page content is
whatever `fetch` returns for the address's code page. -/
def extract_code_fetched (findEditor : String → Option (List Char))
    (attempts : Nat → Except PyExc String) (address : String) :
    Except String (List Char) :=
  extract_code_of_content findEditor address (fetch attempts 5).1

/-! ### Discovery: `crawl.nb_verified` and `crawl.fetch_addresses_verified`

URLs are represented structurally (`crawl.py` builds them by string
formatting from `VERIFIED_URL` and the page number / address, all mutually
distinct).  The page-index parser and the address-tag extractor are oracles;
the fetch log records every `fetch` call in order. -/

inductive Url where
  /-- `VERIFIED_URL`. -/
  | index : Url
  /-- `VERIFIED_URL + "/{i}"`. -/
  | page (i : Nat) : Url
  /-- `"https://etherscan.io/address/{a}#code"`. -/
  | codePage (a : String) : Url
  /-- `"https://etherscan.io/find-similiar-contracts?a=" + a`. -/
  | similar (a : String) : Url
deriving DecidableEq

structure DiscoveryOracle where
  /-- `nb_verified`'s parse of the index page: (current page, total pages). -/
  currPage : Nat
  totalPage : Nat
  /-- The address tags `extract_address_tags` extracts from a page's content. -/
  tags : Url → Finset String

/-- `crawl.nb_verified` (on a cold cache): fetches the index page once and
parses the pagination panel.  Returns ((curr, total), fetch log). -/
def nb_verified (o : DiscoveryOracle) : (Nat × Nat) × List Url :=
  ((o.currPage, o.totalPage), [Url.index])

/-- `crawl.fetch_addresses_verified` (on a cold cache): one index fetch, then
one fetch per page `0 ≤ i < total`, unioning the extracted address tags.
Returns (the address set, the fetch log). -/
def fetch_addresses_verified (o : DiscoveryOracle) : Finset String × List Url :=
  let start := (nb_verified o).2
  (List.range (nb_verified o).1.2).foldl
    (fun acc i => (acc.1 ∪ o.tags (Url.page i), acc.2 ++ [Url.page i]))
    (∅, start)

/-! ### Filesystem model

Paths are component lists, so distinct components can never collide through
string concatenation.  `files` is an association list path ↦ content;
writing with `open(fn, 'w')` truncates, i.e. replaces the stored content.
`dirs` records directories created by `os.makedirs(..., exist_ok=True)`. -/

abbrev FPath := List String

/-- Overwrite-or-append update of an association list. -/
def updAssoc (files : List (FPath × List Char)) (p : FPath) (c : List Char) :
    List (FPath × List Char) :=
  match files with
  | [] => [(p, c)]
  | (q, d) :: rest => if q = p then (p, c) :: rest else (q, d) :: updAssoc rest p c

/-- Content of the file at `p`, if present. -/
def lookupAssoc (files : List (FPath × List Char)) (p : FPath) :
    Option (List Char) :=
  match files with
  | [] => none
  | (q, d) :: rest => if q = p then some d else lookupAssoc rest p

structure FS where
  dirs : List FPath
  files : List (FPath × List Char)
deriving DecidableEq

/-- `os.makedirs(p, exist_ok=True)`. -/
def FS.mkdir (fs : FS) (p : FPath) : FS :=
  if p ∈ fs.dirs then fs else ⟨p :: fs.dirs, fs.files⟩

/-- `open(p, 'w').write(c)`: create or overwrite. -/
def FS.write (fs : FS) (p : FPath) (c : List Char) : FS :=
  ⟨fs.dirs, updAssoc fs.files p c⟩

def FS.read? (fs : FS) (p : FPath) : Option (List Char) :=
  lookupAssoc fs.files p

theorem lookupAssoc_updAssoc (files : List (FPath × List Char)) (p q : FPath)
    (c : List Char) :
    lookupAssoc (updAssoc files p c) q =
      if q = p then some c else lookupAssoc files q := by
  induction files with
  | nil =>
    by_cases h : q = p
    · subst h; simp [updAssoc, lookupAssoc]
    · simp only [updAssoc, lookupAssoc, if_neg h,
        if_neg (fun h' => h (Eq.symm h'))]
  | cons hd tl ih =>
    obtain ⟨r, d⟩ := hd
    by_cases hrp : r = p
    · subst hrp
      simp only [updAssoc, if_pos rfl, lookupAssoc]
      by_cases hq : q = r
      · subst hq; simp
      · rw [if_neg (fun h' => hq (Eq.symm h')), if_neg hq,
          if_neg (fun h' => hq (Eq.symm h'))]
    · simp only [updAssoc, if_neg hrp, lookupAssoc]
      by_cases hq : q = p
      · subst hq
        rw [if_neg (fun h' => hrp h'), ih, if_pos rfl, if_pos rfl]
      · rw [ih, if_neg hq, if_neg hq]

/-! ### The copy utility (`copy_diffs.py` / `analyze_diffs.copy_diffs`)

Both files contain the same loop: for each listed path, the destination name
is the path's basename; if a file with that name already exists in the
output directory the destination name gets `"_0"` appended; then
`shutil.copy2` copies (overwriting whatever is at the destination).  The
destination directory is a flat association list name ↦ content, and the
run also reports whether any copy replaced an existing file. -/

/-- `os.path.split(fn)[-1]`: the segment after the last `'/'` (empty when
the path ends in `'/'`). -/
def basename (s : String) : String :=
  String.mk (s.data.foldl (fun acc c => if c = '/' then [] else acc ++ [c]) [])

/-- Destination-directory state of a `copy_diffs` run: the files, plus a
flag recording whether some `shutil.copy2` overwrote an existing file. -/
structure CopyState where
  files : List (String × String)
  overwrote : Bool
deriving DecidableEq

def lookupStr (files : List (String × String)) (p : String) : Option String :=
  match files with
  | [] => none
  | (q, d) :: rest => if q = p then some d else lookupStr rest p

def updStr (files : List (String × String)) (p : String) (c : String) :
    List (String × String) :=
  match files with
  | [] => [(p, c)]
  | (q, d) :: rest => if q = p then (p, c) :: rest else (q, d) :: updStr rest p c

/-- One iteration of the `copy_diffs` loop on source file (path, content):
`dest_file` is the basename, with `"_0"` appended when a file of that name
already exists; `shutil.copy2` then copies, replacing whatever is at the
destination. -/
def copyStep (st : CopyState) (src : String × String) : CopyState :=
  if lookupStr st.files (basename src.1) ≠ none then
    ⟨updStr st.files (basename src.1 ++ "_0") src.2,
     st.overwrote || (lookupStr st.files (basename src.1 ++ "_0") ≠ none)⟩
  else
    ⟨updStr st.files (basename src.1) src.2,
     st.overwrote || (lookupStr st.files (basename src.1) ≠ none)⟩

/-- `copy_diffs`: fold the copy loop over the selection list (each selected
path paired with the content of the file it names), starting from the given
destination-directory state. -/
def copy_diffs (selection : List (String × String)) (st : CopyState) :
    CopyState :=
  selection.foldl copyStep st

/-! ### `difflib.SequenceMatcher(None, a, b)`

`crawl.compute_diff` delegates to `difflib.unified_diff` with the default
`SequenceMatcher(None, a, b)`: `isjunk` is `None` (so `bjunk` is empty and
the two junk-extension loops of `find_longest_match` never run) and
`autojunk` is on.  The embedding is generic in the element type. -/

section SeqMatcher

variable {α : Type} [DecidableEq α]

/-- The occurrence list `b2j[x]` built by `__chain_b` before purging:
indices of `x` in `b`, in increasing order. -/
def rawIndices (b : List α) (x : α) : List Nat :=
  (List.range b.length).filter (fun j => b[j]? = some x)

/-- The autojunk popularity threshold `ntest = n // 100 + 1`. -/
def autojunkCut (b : List α) : Nat := b.length / 100 + 1

/-- `SequenceMatcher.b2j` for `isjunk=None`: the occurrence list of `x`,
except that "popular" elements (when `len(b) >= 200` and `x` occurs more
than `ntest` times) are purged. -/
def b2j (b : List α) (x : α) : List Nat :=
  if 200 ≤ b.length ∧ autojunkCut b < (rawIndices b x).length then []
  else rawIndices b x

theorem mem_rawIndices {b : List α} {x : α} {j : Nat} :
    j ∈ rawIndices b x ↔ b[j]? = some x := by
  unfold rawIndices
  rw [List.mem_filter, List.mem_range]
  constructor
  · rintro ⟨-, h⟩; exact of_decide_eq_true h
  · intro h
    refine ⟨?_, decide_eq_true h⟩
    by_contra hj
    rw [List.getElem?_eq_none (by omega)] at h
    cases h

theorem mem_b2j_imp {b : List α} {x : α} {j : Nat} (h : j ∈ b2j b x) :
    b[j]? = some x := by
  unfold b2j at h
  by_cases hc : 200 ≤ b.length ∧ autojunkCut b < (rawIndices b x).length
  · rw [if_pos hc] at h; cases h
  · rw [if_neg hc] at h; exact mem_rawIndices.mp h

/-- If `x` is not purged (witnessed by some member), every occurrence of `x`
is in `b2j b x`. -/
theorem mem_b2j_closed {b : List α} {x : α} {j j' : Nat} (h : j ∈ b2j b x)
    (h' : b[j']? = some x) : j' ∈ b2j b x := by
  unfold b2j at h ⊢
  by_cases hc : 200 ≤ b.length ∧ autojunkCut b < (rawIndices b x).length
  · rw [if_pos hc] at h; cases h
  · rw [if_neg hc] at h ⊢; exact mem_rawIndices.mpr h'

theorem b2j_sorted (b : List α) (x : α) : (b2j b x).Pairwise (· < ·) := by
  unfold b2j
  split
  · exact List.Pairwise.nil
  · exact (List.pairwise_lt_range _).sublist (List.filter_sublist _)

/-- A "link" at `(i, j)`: the inner loop of `find_longest_match`, at row `i`,
processes column `j` (so `a[i]` matches `b[j]` and `a[i]` is in `b2j`). -/
def linkB (a b : List α) (alo blo bhi : Nat) (i j : Nat) : Bool :=
  decide (alo ≤ i) && decide (blo ≤ j) && decide (j < bhi) &&
  (match a[i]? with
   | some x => decide (j ∈ b2j b x)
   | none => false)

theorem linkB_iff {a b : List α} {alo blo bhi i j : Nat} :
    linkB a b alo blo bhi i j = true ↔
      alo ≤ i ∧ blo ≤ j ∧ j < bhi ∧ ∃ x, a[i]? = some x ∧ j ∈ b2j b x := by
  unfold linkB
  cases hx : a[i]? with
  | none => simp [hx]
  | some x => simp [hx, and_assoc]

theorem linkB_getElem {a b : List α} {alo blo bhi i j : Nat}
    (h : linkB a b alo blo bhi i j = true) : a[i]? = b[j]? := by
  obtain ⟨-, -, -, x, hx, hj⟩ := linkB_iff.mp h
  rw [hx, mem_b2j_imp hj]

/-- The value `j2len[j]` holds at the end of row `i` of the inner loop:
the length of the chain of links ending at `(i, j)`. -/
def chainlen (a b : List α) (alo blo bhi : Nat) : Nat → Nat → Nat
  | i + 1, j + 1 =>
    if linkB a b alo blo bhi (i + 1) (j + 1) then
      chainlen a b alo blo bhi i j + 1
    else 0
  | i, j => if linkB a b alo blo bhi i j then 1 else 0

/-- The j2len map seen at the start of row `i` (empty before the first row). -/
def prevChain (a b : List α) (alo blo bhi : Nat) : Nat → Nat → Nat
  | 0, _ => 0
  | i + 1, j => chainlen a b alo blo bhi i j

theorem chainlen_base {a b : List α} {alo blo bhi : Nat} {i j : Nat}
    (h : i = 0 ∨ j = 0) :
    chainlen a b alo blo bhi i j =
      if linkB a b alo blo bhi i j then 1 else 0 := by
  refine chainlen.eq_2 a b alo blo bhi i j ?_
  intro i' j' hi hj
  rcases h with h | h <;> simp [h] at hi hj

theorem chainlen_eq_zero {a b : List α} {alo blo bhi i j : Nat}
    (h : linkB a b alo blo bhi i j = false) :
    chainlen a b alo blo bhi i j = 0 := by
  match i, j with
  | i + 1, j + 1 => rw [chainlen.eq_1, if_neg (by simp [h])]
  | 0, j => rw [chainlen_base (Or.inl rfl), if_neg (by simp [h])]
  | i + 1, 0 => rw [chainlen_base (Or.inr rfl), if_neg (by simp [h])]

theorem chainlen_eq_link {a b : List α} {alo blo bhi i j : Nat}
    (h : linkB a b alo blo bhi i j = true) :
    chainlen a b alo blo bhi i j =
      (match j with
       | 0 => 0
       | j' + 1 => prevChain a b alo blo bhi i j') + 1 := by
  match i, j with
  | i + 1, j + 1 => rw [chainlen.eq_1, if_pos h]; rfl
  | 0, j + 1 =>
    rw [chainlen_base (Or.inl rfl), if_pos h]
    rfl
  | i, 0 =>
    rw [chainlen_base (Or.inr rfl), if_pos h]

/-- A match of `k` consecutive elements: `a[i:i+k] == b[j:j+k]`. -/
def MatchAt (a b : List α) (i j k : Nat) : Prop :=
  ∀ t < k, a[i + t]? = b[j + t]?

theorem chainlen_spec {a b : List α} {alo blo bhi : Nat} :
    ∀ i j, 0 < chainlen a b alo blo bhi i j →
      alo + chainlen a b alo blo bhi i j ≤ i + 1 ∧
      blo + chainlen a b alo blo bhi i j ≤ j + 1 ∧
      j < bhi ∧
      MatchAt a b (i + 1 - chainlen a b alo blo bhi i j)
        (j + 1 - chainlen a b alo blo bhi i j) (chainlen a b alo blo bhi i j)
    := by
  intro i j
  induction i, j using chainlen.induct a b alo blo bhi with
  | case1 i j hl ih =>
    intro hpos
    simp only [Nat.succ_eq_add_one] at *
    obtain ⟨h1, h2, h3, -⟩ := linkB_iff.mp hl
    have hgot := linkB_getElem hl
    rw [chainlen.eq_1, if_pos hl] at hpos ⊢
    by_cases hz : 0 < chainlen a b alo blo bhi i j
    · obtain ⟨g1, g2, g3, g4⟩ := ih hz
      set c := chainlen a b alo blo bhi i j with hc
      refine ⟨by omega, by omega, h3, ?_⟩
      intro t ht
      rcases Nat.lt_or_ge t c with htc | htc
      · have e1 : i + 1 + 1 - (c + 1) + t = i + 1 - c + t := by omega
        have e2 : j + 1 + 1 - (c + 1) + t = j + 1 - c + t := by omega
        rw [e1, e2]
        exact g4 t htc
      · have htc' : t = c := by omega
        subst htc'
        have e1 : i + 1 + 1 - (c + 1) + c = i + 1 := by omega
        have e2 : j + 1 + 1 - (c + 1) + c = j + 1 := by omega
        rw [e1, e2]
        exact hgot
    · have hz' : chainlen a b alo blo bhi i j = 0 := by omega
      rw [hz'] at hpos ⊢
      refine ⟨by omega, by omega, h3, ?_⟩
      intro t ht
      have ht' : t = 0 := by omega
      subst ht'
      have e1 : i + 1 + 1 - (0 + 1) + 0 = i + 1 := by omega
      have e2 : j + 1 + 1 - (0 + 1) + 0 = j + 1 := by omega
      rw [e1, e2]
      exact hgot
  | case2 i j hl =>
    intro hpos
    simp only [Nat.succ_eq_add_one] at *
    rw [chainlen_eq_zero (by simpa using hl)] at hpos
    omega
  | case3 i j hbase hl =>
    intro hpos
    obtain ⟨h1, h2, h3, -⟩ := linkB_iff.mp hl
    have hgot := linkB_getElem hl
    rw [chainlen_base (by
      rcases i with - | i
      · exact Or.inl rfl
      · rcases j with - | j
        · exact Or.inr rfl
        · exact (hbase i j rfl rfl).elim), if_pos hl]
    refine ⟨by omega, by omega, h3, ?_⟩
    intro t ht
    have ht' : t = 0 := by omega
    subst ht'
    have e1 : i + 1 - 1 + 0 = i := by omega
    have e2 : j + 1 - 1 + 0 = j := by omega
    rw [e1, e2]
    exact hgot
  | case4 i j hbase hl =>
    intro hpos
    rw [chainlen_eq_zero (by simpa using hl)] at hpos
    omega

/-- The running best of `find_longest_match`: `(besti, bestj, bestsize)`. -/
structure BestMatch where
  bi : Nat
  bj : Nat
  size : Nat
deriving DecidableEq, Inhabited

/-- The inner (j) loop of `find_longest_match` at row `i`: walks the
occurrence list `js = b2j[a[i]]`, skipping `j < blo` (`continue`), stopping
at the first `j ≥ bhi` (`break`, the list being increasing), and otherwise
setting `newj2len[j] = j2len.get(j-1, 0) + 1` and updating the best on a
strict improvement.  `old` is the previous row's `j2len`, `new` the map
being built. -/
def innerLoop (blo bhi i : Nat) (old : Nat → Nat) :
    List Nat → (Nat → Nat) → BestMatch → ((Nat → Nat) × BestMatch)
  | [], new, st => (new, st)
  | j :: js, new, st =>
    if j < blo then innerLoop blo bhi i old js new st
    else if bhi ≤ j then (new, st)
    else
      let k := (if j = 0 then 0 else old (j - 1)) + 1
      let new' := fun j2 => if j2 = j then k else new j2
      let st' := if st.size < k then ⟨i + 1 - k, j + 1 - k, k⟩ else st
      innerLoop blo bhi i old js new' st'

/-- The outer (i) loop of `find_longest_match`, running `cnt` rows starting
at row `i`; `j2len` is threaded between rows and reset per row. -/
def outerLoop (a b : List α) (blo bhi : Nat) :
    Nat → Nat → (Nat → Nat) → BestMatch → BestMatch
  | 0, _, _, st => st
  | cnt + 1, i, j2len, st =>
    let js := match a[i]? with | some x => b2j b x | none => []
    let r := innerLoop blo bhi i j2len js (fun _ => 0) st
    outerLoop a b blo bhi cnt (i + 1) r.1 r.2

/-- The first extension loop of `find_longest_match` (with `isjunk=None`
the junk predicate is constantly false): extend the best match to the left
while the preceding elements are equal. -/
def extendFront (a b : List α) (alo blo : Nat) : Nat → Nat → Nat → BestMatch
  | 0, bj, sz => ⟨0, bj, sz⟩
  | bi + 1, bj, sz =>
    if alo ≤ bi ∧ blo < bj ∧ a[bi]? = b[bj - 1]? then
      extendFront a b alo blo bi (bj - 1) (sz + 1)
    else ⟨bi + 1, bj, sz⟩

/-- The second extension loop: extend to the right.  The fuel argument is
exactly `ahi - (besti + bestsize)`, so fuel exhaustion coincides with the
loop condition `besti + bestsize < ahi`. -/
def extendBackAux (a b : List α) (bhi bi bj : Nat) : Nat → Nat → Nat
  | 0, sz => sz
  | f + 1, sz =>
    if bj + sz < bhi ∧ a[bi + sz]? = b[bj + sz]? then
      extendBackAux a b bhi bi bj f (sz + 1)
    else sz

def extendBack (a b : List α) (ahi bhi : Nat) (m : BestMatch) : BestMatch :=
  ⟨m.bi, m.bj, extendBackAux a b bhi m.bi m.bj (ahi - (m.bi + m.size)) m.size⟩

/-- `SequenceMatcher.find_longest_match(alo, ahi, blo, bhi)` with
`isjunk=None` (so the two final junk-extension loops never fire). -/
def find_longest_match (a b : List α) (alo ahi blo bhi : Nat) : BestMatch :=
  let st0 := outerLoop a b blo bhi (ahi - alo) alo (fun _ => 0) ⟨alo, blo, 0⟩
  let st1 := extendFront a b alo blo st0.bi st0.bj st0.size
  extendBack a b ahi bhi st1

/-- Validity of a best match: in range and actually matching. -/
def BestValid (a b : List α) (alo ahi blo bhi : Nat) (m : BestMatch) : Prop :=
  alo ≤ m.bi ∧ blo ≤ m.bj ∧ m.bi + m.size ≤ ahi ∧ m.bj + m.size ≤ bhi ∧
  MatchAt a b m.bi m.bj m.size

/-- Unfolding of `innerLoop` on a processed column (neither skipped nor
breaking), with the `let`s expanded. -/
theorem innerLoop_cons_process {blo bhi i : Nat} {old : Nat → Nat} {j : Nat}
    {js : List Nat} {new : Nat → Nat} {st : BestMatch}
    (h1 : ¬j < blo) (h2 : ¬bhi ≤ j) :
    innerLoop blo bhi i old (j :: js) new st =
      innerLoop blo bhi i old js
        (fun j2 => if j2 = j then (if j = 0 then 0 else old (j - 1)) + 1
                   else new j2)
        (if st.size < (if j = 0 then 0 else old (j - 1)) + 1
         then ⟨i + 1 - ((if j = 0 then 0 else old (j - 1)) + 1),
               j + 1 - ((if j = 0 then 0 else old (j - 1)) + 1),
               (if j = 0 then 0 else old (j - 1)) + 1⟩
         else st) := by
  rw [innerLoop.eq_2, if_neg h1, if_neg h2]

theorem innerLoop_best {a b : List α} {alo ahi blo bhi i : Nat}
    {old : Nat → Nat}
    (hold : ∀ j, old j = prevChain a b alo blo bhi i j)
    (hia : alo ≤ i) (hih : i < ahi) :
    ∀ js new st,
      (∀ j ∈ js, ∃ x, a[i]? = some x ∧ j ∈ b2j b x) →
      BestValid a b alo ahi blo bhi st →
      BestValid a b alo ahi blo bhi (innerLoop blo bhi i old js new st).2 := by
  intro js
  induction js with
  | nil => intro new st _ hst; exact hst
  | cons j js ih =>
    intro new st hjs hst
    rw [innerLoop.eq_2]
    by_cases h1 : j < blo
    · rw [if_pos h1]
      exact ih new st (fun j' hj' => hjs j' (List.mem_cons_of_mem _ hj')) hst
    · rw [if_neg h1]
      by_cases h2 : bhi ≤ j
      · rw [if_pos h2]
        exact hst
      · rw [if_neg h2]
        refine ih _ _ (fun j' hj' => hjs j' (List.mem_cons_of_mem _ hj')) ?_
        have hlink : linkB a b alo blo bhi i j = true := by
          rw [linkB_iff]
          exact ⟨hia, by omega, by omega, hjs j (List.mem_cons_self _ _)⟩
        have hk : (if j = 0 then 0 else old (j - 1)) + 1 =
            chainlen a b alo blo bhi i j := by
          rw [chainlen_eq_link hlink]
          cases j with
          | zero => rfl
          | succ j' => simp [hold j']
        by_cases hupd : st.size < (if j = 0 then 0 else old (j - 1)) + 1
        · simp only [if_pos hupd]
          rw [hk]
          set c := chainlen a b alo blo bhi i j with hc
          have hcpos : 0 < c := by omega
          obtain ⟨g1, g2, g3, g4⟩ := chainlen_spec i j hcpos
          refine ⟨?_, ?_, ?_, ?_, ?_⟩
          · show alo ≤ i + 1 - c
            omega
          · show blo ≤ j + 1 - c
            omega
          · show i + 1 - c + c ≤ ahi
            omega
          · show j + 1 - c + c ≤ bhi
            omega
          · exact g4
        · simp only [if_neg hupd]
          exact hst

theorem innerLoop_new {a b : List α} {alo blo bhi i : Nat} {old : Nat → Nat}
    (hold : ∀ j, old j = prevChain a b alo blo bhi i j)
    (hia : alo ≤ i) :
    ∀ js new st,
      (∀ j ∈ js, ∃ x, a[i]? = some x ∧ j ∈ b2j b x) →
      js.Pairwise (· < ·) →
      (∀ j2, new j2 =
        if linkB a b alo blo bhi i j2 = true ∧ j2 ∉ js
        then chainlen a b alo blo bhi i j2 else 0) →
      ∀ j2, (innerLoop blo bhi i old js new st).1 j2 =
        chainlen a b alo blo bhi i j2 := by
  intro js
  induction js with
  | nil =>
    intro new st _ _ hnew j2
    rw [innerLoop.eq_1]
    show new j2 = _
    rw [hnew j2]
    by_cases hl : linkB a b alo blo bhi i j2 = true
    · rw [if_pos ⟨hl, List.not_mem_nil j2⟩]
    · rw [if_neg (fun hc => hl hc.1), chainlen_eq_zero (by simpa using hl)]
  | cons j js ih =>
    intro new st hsub hsorted hnew j2
    have hjlt : ∀ x ∈ js, j < x := by
      intro x hx
      exact (List.pairwise_cons.mp hsorted).1 x hx
    have hsorted' := (List.pairwise_cons.mp hsorted).2
    rw [innerLoop.eq_2]
    by_cases h1 : j < blo
    · rw [if_pos h1]
      refine ih _ _ (fun j' hj' => hsub j' (List.mem_cons_of_mem _ hj'))
        hsorted' ?_ j2
      intro j3
      rw [hnew j3]
      by_cases he : j3 = j
      · subst he
        have hmem : j3 ∈ j3 :: js := List.mem_cons_self _ _
        have hnl : linkB a b alo blo bhi i j3 = false := by
          rw [Bool.eq_false_iff]
          intro hc
          obtain ⟨-, hblo, -, -⟩ := linkB_iff.mp hc
          omega
        rw [if_neg (by simp [hnl]), if_neg (by simp [hnl])]
      · by_cases hl : linkB a b alo blo bhi i j3 = true ∧ j3 ∉ js
        · rw [if_pos ⟨hl.1, by simp [he, hl.2]⟩, if_pos hl]
        · rw [if_neg (by
            intro hc
            exact hl ⟨hc.1, fun hm => hc.2 (List.mem_cons_of_mem _ hm)⟩),
            if_neg hl]
    · rw [if_neg h1]
      by_cases h2 : bhi ≤ j
      · rw [if_pos h2]
        show new j2 = _
        rw [hnew j2]
        by_cases hl : linkB a b alo blo bhi i j2 = true
        · have hnotin : j2 ∉ j :: js := by
            intro hmem
            obtain ⟨-, -, hbhi, -⟩ := linkB_iff.mp hl
            rcases List.mem_cons.mp hmem with he | hm
            · omega
            · have := hjlt j2 hm
              omega
          rw [if_pos ⟨hl, hnotin⟩]
        · rw [if_neg (fun hc => hl hc.1), chainlen_eq_zero (by simpa using hl)]
      · rw [if_neg h2]
        have hlink : linkB a b alo blo bhi i j = true := by
          rw [linkB_iff]
          exact ⟨hia, by omega, by omega, hsub j (List.mem_cons_self _ _)⟩
        have hk : (if j = 0 then 0 else old (j - 1)) + 1 =
            chainlen a b alo blo bhi i j := by
          rw [chainlen_eq_link hlink]
          cases j with
          | zero => rfl
          | succ j' => simp [hold j']
        refine ih _ _ (fun j' hj' => hsub j' (List.mem_cons_of_mem _ hj'))
          hsorted' ?_ j2
        intro j3
        show (if j3 = j then (if j = 0 then 0 else old (j - 1)) + 1
              else new j3) = _
        by_cases he : j3 = j
        · rw [if_pos he, hk]
          subst he
          have hnotin : j3 ∉ js := fun hm => absurd (hjlt j3 hm) (lt_irrefl j3)
          rw [if_pos ⟨hlink, hnotin⟩]
        · rw [if_neg he, hnew j3]
          by_cases hl : linkB a b alo blo bhi i j3 = true ∧ j3 ∉ js
          · rw [if_pos ⟨hl.1, by simp [he, hl.2]⟩, if_pos hl]
          · rw [if_neg (by
              intro hc
              exact hl ⟨hc.1, fun hm => hc.2 (List.mem_cons_of_mem _ hm)⟩),
              if_neg hl]

theorem outerLoop_valid {a b : List α} {alo ahi blo bhi : Nat} :
    ∀ cnt i j2len st,
      (∀ j, j2len j = prevChain a b alo blo bhi i j) →
      alo ≤ i → i + cnt ≤ ahi →
      BestValid a b alo ahi blo bhi st →
      BestValid a b alo ahi blo bhi (outerLoop a b blo bhi cnt i j2len st) := by
  intro cnt
  induction cnt with
  | zero => intro i j2len st _ _ _ hst; exact hst
  | succ cnt ih =>
    intro i j2len st hmap hia hcnt hst
    rw [outerLoop.eq_2]
    have hsub : ∀ j ∈ (match a[i]? with | some x => b2j b x | none => []),
        ∃ x, a[i]? = some x ∧ j ∈ b2j b x := by
      cases hx : a[i]? with
      | none => intro j hj; cases hj
      | some x => intro j hj; exact ⟨x, rfl, hj⟩
    have hsorted : (match a[i]? with
        | some x => b2j b x | none => []).Pairwise (· < ·) := by
      cases hx : a[i]? with
      | none => exact List.Pairwise.nil
      | some x => exact b2j_sorted b x
    have hnew0 : ∀ j2, (fun _ => 0 : Nat → Nat) j2 =
        if linkB a b alo blo bhi i j2 = true ∧
           j2 ∉ (match a[i]? with | some x => b2j b x | none => [])
        then chainlen a b alo blo bhi i j2 else 0 := by
      intro j2
      by_cases hl : linkB a b alo blo bhi i j2 = true
      · obtain ⟨-, -, -, x, hx, hj⟩ := linkB_iff.mp hl
        rw [if_neg (by
          intro hc
          apply hc.2
          rw [hx]
          exact hj)]
      · rw [if_neg (fun hc => hl hc.1)]
    refine ih (i + 1) _ _ ?_ (by omega) (by omega)
      (innerLoop_best hmap hia (by omega) _ _ _ hsub hst)
    intro j
    rw [innerLoop_new hmap hia _ _ _ hsub hsorted hnew0 j]
    rfl

theorem extendFront_valid {a b : List α} {alo ahi blo bhi : Nat} :
    ∀ bi bj sz,
      BestValid a b alo ahi blo bhi ⟨bi, bj, sz⟩ →
      BestValid a b alo ahi blo bhi (extendFront a b alo blo bi bj sz) := by
  intro bi
  induction bi with
  | zero => intro bj sz hst; exact hst
  | succ bi ih =>
    intro bj sz hst
    rw [extendFront.eq_2]
    split
    · rename_i hg
      obtain ⟨hg1, hg2, hg3⟩ := hg
      obtain ⟨h1, h2, h3, h4, h5⟩ := hst
      dsimp only at h1 h2 h3 h4 h5
      refine ih (bj - 1) (sz + 1) ⟨hg1, ?_, ?_, ?_, ?_⟩
      · show blo ≤ bj - 1
        omega
      · show bi + (sz + 1) ≤ ahi
        omega
      · show bj - 1 + (sz + 1) ≤ bhi
        omega
      · show MatchAt a b bi (bj - 1) (sz + 1)
        intro t ht
        rcases Nat.eq_zero_or_pos t with ht0 | htp
        · subst ht0
          simpa using hg3
        · have e1 : bi + t = bi + 1 + (t - 1) := by omega
          have e2 : bj - 1 + t = bj + (t - 1) := by omega
          rw [e1, e2]
          exact h5 (t - 1) (by omega)
    · exact hst

theorem extendBackAux_valid {a b : List α} (ahi bhi bi bj : Nat) :
    ∀ f sz,
      MatchAt a b bi bj sz → bj + sz ≤ bhi → bi + sz + f ≤ ahi →
      MatchAt a b bi bj (extendBackAux a b bhi bi bj f sz) ∧
      bj + extendBackAux a b bhi bi bj f sz ≤ bhi ∧
      bi + extendBackAux a b bhi bi bj f sz ≤ ahi ∧
      sz ≤ extendBackAux a b bhi bi bj f sz := by
  intro f
  induction f with
  | zero =>
    intro sz h1 h2 h3
    exact ⟨h1, h2, by simpa using h3, le_refl _⟩
  | succ f ih =>
    intro sz h1 h2 h3
    rw [extendBackAux.eq_2]
    split
    · rename_i hg
      obtain ⟨hg1, hg2⟩ := hg
      have h1' : MatchAt a b bi bj (sz + 1) := by
        intro t ht
        rcases Nat.lt_or_ge t sz with hts | hts
        · exact h1 t hts
        · have : t = sz := by omega
          subst this
          exact hg2
      obtain ⟨g1, g2, g3, g4⟩ := ih (sz + 1) h1' (by omega) (by omega)
      exact ⟨g1, g2, g3, by omega⟩
    · exact ⟨h1, h2, by omega, le_refl _⟩

/-- `find_longest_match` returns a valid (in-range, matching) block. -/
theorem flm_valid (a b : List α) (alo ahi blo bhi : Nat)
    (ha : alo ≤ ahi) (hb : blo ≤ bhi) :
    BestValid a b alo ahi blo bhi (find_longest_match a b alo ahi blo bhi) := by
  unfold find_longest_match
  have h0 : BestValid a b alo ahi blo bhi ⟨alo, blo, 0⟩ := by
    refine ⟨le_refl _, le_refl _, ?_, ?_, ?_⟩
    · show alo + 0 ≤ ahi
      omega
    · show blo + 0 ≤ bhi
      omega
    · show MatchAt a b alo blo 0
      intro t ht
      omega
  have hmap0 : ∀ j, (fun _ => 0 : Nat → Nat) j =
      prevChain a b alo blo bhi alo j := by
    intro j
    cases halo : alo with
    | zero => rfl
    | succ alo' =>
      show 0 = chainlen a b (alo' + 1) blo bhi alo' j
      rw [chainlen_eq_zero]
      rw [Bool.eq_false_iff]
      intro hc
      obtain ⟨hc1, -, -, -⟩ := linkB_iff.mp hc
      omega
  have h1 := outerLoop_valid (ahi - alo) alo (fun _ => 0) ⟨alo, blo, 0⟩
    hmap0 (le_refl _) (by omega) h0
  set st0 := outerLoop a b blo bhi (ahi - alo) alo (fun _ => 0) ⟨alo, blo, 0⟩
  have h2 : BestValid a b alo ahi blo bhi
      (extendFront a b alo blo st0.bi st0.bj st0.size) :=
    extendFront_valid st0.bi st0.bj st0.size h1
  set st1 := extendFront a b alo blo st0.bi st0.bj st0.size
  obtain ⟨g1, g2, g3, g4, g5⟩ := h2
  obtain ⟨e1, e2, e3, e4⟩ := extendBackAux_valid ahi bhi st1.bi st1.bj
    (ahi - (st1.bi + st1.size)) st1.size g5 g4 (by omega)
  exact ⟨g1, g2, e3, e2, e1⟩

/-! #### Comparing a sequence with itself

For `SequenceMatcher(None, a, a)` the extension loops complete any best
match to the whole range, provided the inner loop's best is on the diagonal
(`besti = bestj`).  That it always is follows from the two domination
lemmas below: a chain ending at `(i, j)` is dominated by the diagonal chain
ending at the earlier of the two rows. -/

theorem linkB_self_left {a : List α} {alo bhi i j : Nat}
    (h : linkB a a alo alo bhi i j = true) (hji : j ≤ i) :
    linkB a a alo alo bhi j j = true := by
  obtain ⟨h1, h2, h3, x, hx, hj⟩ := linkB_iff.mp h
  exact linkB_iff.mpr ⟨h2, h2, h3, x, mem_b2j_imp hj, hj⟩

theorem linkB_self_right {a : List α} {alo bhi i j : Nat}
    (h : linkB a a alo alo bhi i j = true) (hij : i ≤ j) :
    linkB a a alo alo bhi i i = true := by
  obtain ⟨h1, h2, h3, x, hx, hj⟩ := linkB_iff.mp h
  exact linkB_iff.mpr ⟨h1, h1, by omega, x, hx, mem_b2j_closed hj hx⟩

theorem chainlen_diag_left {a : List α} {alo bhi : Nat} :
    ∀ j i, j ≤ i →
      chainlen a a alo alo bhi i j ≤ chainlen a a alo alo bhi j j := by
  intro j
  induction j with
  | zero =>
    intro i hji
    by_cases hl : linkB a a alo alo bhi i 0 = true
    · have h00 := linkB_self_left hl (by omega)
      have : chainlen a a alo alo bhi 0 0 = 1 := by
        rw [chainlen_base (Or.inl rfl), if_pos h00]
      rw [this]
      rcases Nat.eq_zero_or_pos (chainlen a a alo alo bhi i 0) with hz | hp
      · omega
      · obtain ⟨g1, g2, -, -⟩ := chainlen_spec i 0 hp
        omega
    · rw [chainlen_eq_zero (by simpa using hl)]
      omega
  | succ j' ih =>
    intro i hji
    obtain ⟨i', rfl⟩ : ∃ i', i = i' + 1 := ⟨i - 1, by omega⟩
    by_cases hl : linkB a a alo alo bhi (i' + 1) (j' + 1) = true
    · have hdl := linkB_self_left hl hji
      rw [chainlen.eq_1, if_pos hl, chainlen.eq_1, if_pos hdl]
      have := ih i' (by omega)
      omega
    · rw [chainlen_eq_zero (by simpa using hl)]
      omega

theorem chainlen_diag_right {a : List α} {alo bhi : Nat} :
    ∀ i j, i ≤ j →
      chainlen a a alo alo bhi i j ≤ chainlen a a alo alo bhi i i := by
  intro i
  induction i with
  | zero =>
    intro j hij
    by_cases hl : linkB a a alo alo bhi 0 j = true
    · have h00 := linkB_self_right hl (by omega)
      have : chainlen a a alo alo bhi 0 0 = 1 := by
        rw [chainlen_base (Or.inl rfl), if_pos h00]
      rw [this, chainlen_base (Or.inl rfl)]
      split <;> omega
    · rw [chainlen_eq_zero (by simpa using hl)]
      omega
  | succ i' ih =>
    intro j hij
    obtain ⟨j', rfl⟩ : ∃ j', j = j' + 1 := ⟨j - 1, by omega⟩
    by_cases hl : linkB a a alo alo bhi (i' + 1) (j' + 1) = true
    · have hdr := linkB_self_right hl hij
      rw [chainlen.eq_1, if_pos hl, chainlen.eq_1, if_pos hdr]
      have := ih j' (by omega)
      omega
    · rw [chainlen_eq_zero (by simpa using hl)]
      omega

/-- Through the inner loop on `a` vs `a`, the best stays diagonal and ends
up dominating every diagonal chain up to the current row. -/
theorem innerLoop_diag {a : List α} {alo bhi i : Nat} {old : Nat → Nat}
    (hold : ∀ j, old j = prevChain a a alo alo bhi i j)
    (hia : alo ≤ i) :
    ∀ js new st,
      (∀ j ∈ js, ∃ x, a[i]? = some x ∧ j ∈ b2j a x) →
      js.Pairwise (· < ·) →
      st.bi = st.bj →
      (∀ r, alo ≤ r → r < i → chainlen a a alo alo bhi r r ≤ st.size) →
      ((linkB a a alo alo bhi i i = false ∨ i ∉ js) →
        chainlen a a alo alo bhi i i ≤ st.size) →
      (innerLoop alo bhi i old js new st).2.bi =
        (innerLoop alo bhi i old js new st).2.bj ∧
      (∀ r, alo ≤ r → r ≤ i →
        chainlen a a alo alo bhi r r ≤ (innerLoop alo bhi i old js new st).2.size)
    := by
  intro js
  induction js with
  | nil =>
    intro new st _ _ hdiag hrows hrowi
    rw [innerLoop.eq_1]
    refine ⟨hdiag, ?_⟩
    intro r hr1 hr2
    rcases Nat.lt_or_ge r i with hlt | hge
    · exact hrows r hr1 hlt
    · have : r = i := by omega
      subst this
      exact hrowi (Or.inr (List.not_mem_nil r))
  | cons j js ih =>
    intro new st hsub hsorted hdiag hrows hrowi
    have hjlt : ∀ x ∈ js, j < x := fun x hx =>
      (List.pairwise_cons.mp hsorted).1 x hx
    have hsorted' := (List.pairwise_cons.mp hsorted).2
    by_cases h1 : j < alo
    · rw [innerLoop.eq_2, if_pos h1]
      refine ih _ _ (fun j' hj' => hsub j' (List.mem_cons_of_mem _ hj'))
        hsorted' hdiag hrows ?_
      intro hcond
      apply hrowi
      rcases hcond with hcond | hcond
      · exact Or.inl hcond
      · refine Or.inr ?_
        intro hmem
        rcases List.mem_cons.mp hmem with he | hm
        · omega
        · exact hcond hm
    · by_cases h2 : bhi ≤ j
      · rw [innerLoop.eq_2, if_neg h1, if_pos h2]
        refine ⟨hdiag, ?_⟩
        intro r hr1 hr2
        rcases Nat.lt_or_ge r i with hlt | hge
        · exact hrows r hr1 hlt
        · have : r = i := by omega
          subst this
          apply hrowi
          by_cases hl : linkB a a alo alo bhi r r = true
          · refine Or.inr ?_
            intro hmem
            obtain ⟨-, -, hb, -⟩ := linkB_iff.mp hl
            rcases List.mem_cons.mp hmem with he | hm
            · omega
            · have := hjlt r hm
              omega
          · exact Or.inl (by simpa using hl)
      · have hlink : linkB a a alo alo bhi i j = true := by
          rw [linkB_iff]
          exact ⟨hia, by omega, by omega, hsub j (List.mem_cons_self _ _)⟩
        have hk : (if j = 0 then 0 else old (j - 1)) + 1 =
            chainlen a a alo alo bhi i j := by
          rw [chainlen_eq_link hlink]
          cases j with
          | zero => rfl
          | succ j' => simp [hold j']
        obtain ⟨hL1, hL2, hL3, -⟩ := linkB_iff.mp hlink
        rw [innerLoop_cons_process h1 h2]
        rcases Nat.lt_trichotomy j i with hji | hji | hji
        · have hnoupd : ¬(st.size < (if j = 0 then 0 else old (j - 1)) + 1) := by
            rw [hk]
            have hc1 : chainlen a a alo alo bhi i j ≤
                chainlen a a alo alo bhi j j :=
              chainlen_diag_left j i (by omega)
            have hc2 := hrows j (by omega) hji
            omega
          rw [if_neg hnoupd]
          refine ih _ _ (fun j' hj' => hsub j' (List.mem_cons_of_mem _ hj'))
            hsorted' hdiag hrows ?_
          intro hcond
          apply hrowi
          rcases hcond with hcond | hcond
          · exact Or.inl hcond
          · refine Or.inr ?_
            intro hmem
            rcases List.mem_cons.mp hmem with he | hm
            · omega
            · exact hcond hm
        · subst hji
          by_cases hupd : st.size < (if j = 0 then 0 else old (j - 1)) + 1
          · rw [if_pos hupd]
            refine ih _ _ (fun j' hj' => hsub j' (List.mem_cons_of_mem _ hj'))
              hsorted' rfl ?_ ?_
            · intro r hr1 hr2
              have := hrows r hr1 hr2
              show chainlen a a alo alo bhi r r ≤
                (if j = 0 then 0 else old (j - 1)) + 1
              omega
            · intro _
              show chainlen a a alo alo bhi j j ≤
                (if j = 0 then 0 else old (j - 1)) + 1
              omega
          · rw [if_neg hupd]
            refine ih _ _ (fun j' hj' => hsub j' (List.mem_cons_of_mem _ hj'))
              hsorted' hdiag hrows ?_
            intro _
            omega
        · have hnoupd : ¬(st.size < (if j = 0 then 0 else old (j - 1)) + 1) := by
            rw [hk]
            have hc1 : chainlen a a alo alo bhi i j ≤
                chainlen a a alo alo bhi i i :=
              chainlen_diag_right i j (by omega)
            have hc2 := hrowi (by
              refine Or.inr ?_
              intro hmem
              rcases List.mem_cons.mp hmem with he | hm
              · omega
              · have := hjlt i hm
                omega)
            omega
          rw [if_neg hnoupd]
          refine ih _ _ (fun j' hj' => hsub j' (List.mem_cons_of_mem _ hj'))
            hsorted' hdiag hrows ?_
          intro _
          apply hrowi
          refine Or.inr ?_
          intro hmem
          rcases List.mem_cons.mp hmem with he | hm
          · omega
          · have := hjlt i hm
            omega

/-- The outer loop on `a` vs `a` keeps the best diagonal. -/
theorem outerLoop_diag {a : List α} {alo bhi : Nat} :
    ∀ cnt i j2len st,
      (∀ j, j2len j = prevChain a a alo alo bhi i j) →
      alo ≤ i →
      st.bi = st.bj →
      (∀ r, alo ≤ r → r < i → chainlen a a alo alo bhi r r ≤ st.size) →
      (outerLoop a a alo bhi cnt i j2len st).bi =
        (outerLoop a a alo bhi cnt i j2len st).bj := by
  intro cnt
  induction cnt with
  | zero => intro i j2len st _ _ hdiag _; exact hdiag
  | succ cnt ih =>
    intro i j2len st hmap hia hdiag hrows
    rw [outerLoop.eq_2]
    have hsub : ∀ j ∈ (match a[i]? with | some x => b2j a x | none => []),
        ∃ x, a[i]? = some x ∧ j ∈ b2j a x := by
      cases hx : a[i]? with
      | none => intro j hj; cases hj
      | some x => intro j hj; exact ⟨x, rfl, hj⟩
    have hsorted : (match a[i]? with
        | some x => b2j a x | none => []).Pairwise (· < ·) := by
      cases hx : a[i]? with
      | none => exact List.Pairwise.nil
      | some x => exact b2j_sorted a x
    have hrowi : (linkB a a alo alo bhi i i = false ∨
        i ∉ (match a[i]? with | some x => b2j a x | none => [])) →
        chainlen a a alo alo bhi i i ≤ st.size := by
      intro hcond
      rcases hcond with hcond | hcond
      · rw [chainlen_eq_zero hcond]
        omega
      · by_cases hl : linkB a a alo alo bhi i i = true
        · exfalso
          obtain ⟨-, -, -, x, hx, hj⟩ := linkB_iff.mp hl
          apply hcond
          rw [hx]
          exact hj
        · rw [chainlen_eq_zero (by simpa using hl)]
          omega
    obtain ⟨hd, hr⟩ := innerLoop_diag hmap hia _ (fun _ => 0) st hsub hsorted
      hdiag hrows hrowi
    refine ih (i + 1) _ _ ?_ (by omega) hd ?_
    · intro j
      rw [innerLoop_new hmap hia _ _ _ hsub hsorted ?_ j]
      · rfl
      · intro j2
        by_cases hl : linkB a a alo alo bhi i j2 = true
        · obtain ⟨-, -, -, x, hx, hj⟩ := linkB_iff.mp hl
          rw [if_neg (by
            intro hc
            apply hc.2
            rw [hx]
            exact hj)]
        · rw [if_neg (fun hc => hl hc.1)]
    · intro r hr1 hr2
      exact hr r hr1 (by omega)

/-- Front extension on the diagonal runs all the way down to `alo`. -/
theorem extendFront_diag {a : List α} {alo : Nat} :
    ∀ x sz, alo ≤ x →
      extendFront a a alo alo x x sz = ⟨alo, alo, sz + (x - alo)⟩ := by
  intro x
  induction x with
  | zero =>
    intro sz hx
    have : alo = 0 := by omega
    subst this
    rw [extendFront.eq_1]
    simp
  | succ x ih =>
    intro sz hx
    rw [extendFront.eq_2]
    by_cases hc : alo ≤ x
    · rw [if_pos ⟨hc, by omega, by simp⟩]
      rw [show x + 1 - 1 = x from by omega, ih (sz + 1) hc]
      congr 1
      omega
    · have : alo = x + 1 := by omega
      rw [if_neg (by
        intro hcc
        exact hc hcc.1)]
      subst this
      congr 1
      omega

/-- Back extension on the diagonal runs all the way up: with fuel exactly
`bhi - (alo + sz)`, the result is `sz + fuel`. -/
theorem extendBackAux_diag {a : List α} {bhi alo : Nat} :
    ∀ f sz, f = bhi - (alo + sz) →
      extendBackAux a a bhi alo alo f sz = sz + f := by
  intro f
  induction f with
  | zero => intro sz _; rw [extendBackAux.eq_1]; omega
  | succ f ih =>
    intro sz hf
    rw [extendBackAux.eq_2, if_pos ⟨by omega, rfl⟩, ih (sz + 1) (by omega)]
    omega

/-- `find_longest_match` on two identical sequences returns the whole
range: the extension loops close any gap left by the inner loop. -/
theorem flm_self (a : List α) (alo ahi : Nat) (h : alo ≤ ahi) :
    find_longest_match a a alo ahi alo ahi = ⟨alo, alo, ahi - alo⟩ := by
  rw [show find_longest_match a a alo ahi alo ahi =
    extendBack a a ahi ahi (extendFront a a alo alo
      (outerLoop a a alo ahi (ahi - alo) alo (fun _ => 0) ⟨alo, alo, 0⟩).bi
      (outerLoop a a alo ahi (ahi - alo) alo (fun _ => 0) ⟨alo, alo, 0⟩).bj
      (outerLoop a a alo ahi (ahi - alo) alo (fun _ => 0) ⟨alo, alo, 0⟩).size)
    from rfl]
  have hmap0 : ∀ j, (fun _ => 0 : Nat → Nat) j =
      prevChain a a alo alo ahi alo j := by
    intro j
    cases halo : alo with
    | zero => rfl
    | succ alo' =>
      show 0 = chainlen a a (alo' + 1) (alo' + 1) ahi alo' j
      rw [chainlen_eq_zero]
      rw [Bool.eq_false_iff]
      intro hc
      obtain ⟨hc1, -, -, -⟩ := linkB_iff.mp hc
      omega
  have h0 : BestValid a a alo ahi alo ahi ⟨alo, alo, 0⟩ := by
    refine ⟨le_refl _, le_refl _, ?_, ?_, ?_⟩
    · show alo + 0 ≤ ahi
      omega
    · show alo + 0 ≤ ahi
      omega
    · show MatchAt a a alo alo 0
      intro t ht
      omega
  have hvalid := outerLoop_valid (ahi - alo) alo (fun _ => 0) ⟨alo, alo, 0⟩
    hmap0 (le_refl _) (by omega) h0
  have hdiag := outerLoop_diag (ahi - alo) alo (fun _ => 0) ⟨alo, alo, 0⟩
    hmap0 (le_refl _) rfl (by intro r h1 h2; omega)
  set st0 := outerLoop a a alo ahi (ahi - alo) alo (fun _ => 0) ⟨alo, alo, 0⟩
  obtain ⟨v1, v2, v3, v4, v5⟩ := hvalid
  have hfront : extendFront a a alo alo st0.bi st0.bj st0.size =
      ⟨alo, alo, st0.size + (st0.bi - alo)⟩ := by
    rw [← hdiag]
    exact extendFront_diag st0.bi st0.size v1
  rw [hfront]
  unfold extendBack
  have hsz : st0.size + (st0.bi - alo) ≤ ahi - alo := by omega
  rw [show ((⟨alo, alo, st0.size + (st0.bi - alo)⟩ : BestMatch).bi) = alo
    from rfl]
  rw [show ((⟨alo, alo, st0.size + (st0.bi - alo)⟩ : BestMatch).bj) = alo
    from rfl]
  rw [show ((⟨alo, alo, st0.size + (st0.bi - alo)⟩ : BestMatch).size) =
    st0.size + (st0.bi - alo) from rfl]
  rw [extendBackAux_diag _ _ rfl]
  congr 1
  omega

/-! ### `get_matching_blocks`

CPython maintains an explicit LIFO queue of pending ranges and sorts the
collected blocks at the end.  Since the subproblems are processed
independently and the blocks of distinct subranges are strictly ordered
(each recursive range lies entirely left / right of its block), the queue
traversal plus final `sort()` is equivalent to an in-order recursion, which
is what `mbRec` performs; the fuel dominates the shrinking measure
`(ahi - alo) + (bhi - blo)`. -/

def mbRec (a b : List α) : Nat → Nat → Nat → Nat → Nat → List (Nat × Nat × Nat)
  | 0, _, _, _, _ => []
  | fuel + 1, alo, ahi, blo, bhi =>
    let m := find_longest_match a b alo ahi blo bhi
    if m.size = 0 then []
    else
      (if alo < m.bi ∧ blo < m.bj then mbRec a b fuel alo m.bi blo m.bj
       else [])
      ++ [(m.bi, m.bj, m.size)]
      ++ (if m.bi + m.size < ahi ∧ m.bj + m.size < bhi
          then mbRec a b fuel (m.bi + m.size) ahi (m.bj + m.size) bhi
          else [])

/-- The adjacent-block collapsing loop of `get_matching_blocks`, with the
running block `(i1, j1, k1)` (initially the dummy `(0, 0, 0)`). -/
def collapseAux : (Nat × Nat × Nat) → List (Nat × Nat × Nat) →
    List (Nat × Nat × Nat)
  | (i1, j1, k1), [] => if k1 ≠ 0 then [(i1, j1, k1)] else []
  | (i1, j1, k1), (i2, j2, k2) :: rest =>
    if i1 + k1 = i2 ∧ j1 + k1 = j2 then collapseAux (i1, j1, k1 + k2) rest
    else (if k1 ≠ 0 then [(i1, j1, k1)] else []) ++ collapseAux (i2, j2, k2) rest

/-- `SequenceMatcher.get_matching_blocks`, ending with the sentinel
`(la, lb, 0)`. -/
def get_matching_blocks (a b : List α) : List (Nat × Nat × Nat) :=
  collapseAux (0, 0, 0)
    (mbRec a b (a.length + b.length + 1) 0 a.length 0 b.length)
  ++ [(a.length, b.length, 0)]

/-- Valid chained blocks inside the window `[lo_i, hi_i) × [lo_j, hi_j)`:
increasing, non-empty, in range, and matching. -/
inductive BlocksChained (a b : List α) :
    Nat → Nat → Nat → Nat → List (Nat × Nat × Nat) → Prop
  | nil : ∀ {lo_i lo_j hi_i hi_j}, lo_i ≤ hi_i → lo_j ≤ hi_j →
      BlocksChained a b lo_i lo_j hi_i hi_j []
  | cons : ∀ {lo_i lo_j hi_i hi_j i j k rest},
      lo_i ≤ i → lo_j ≤ j → 1 ≤ k → i + k ≤ hi_i → j + k ≤ hi_j →
      MatchAt a b i j k →
      BlocksChained a b (i + k) (j + k) hi_i hi_j rest →
      BlocksChained a b lo_i lo_j hi_i hi_j ((i, j, k) :: rest)

theorem BlocksChained.mono {a b : List α}
    {lo_i lo_j hi_i hi_j lo_i' lo_j' : Nat} {l : List (Nat × Nat × Nat)}
    (h : BlocksChained a b lo_i lo_j hi_i hi_j l)
    (h1 : lo_i' ≤ lo_i) (h2 : lo_j' ≤ lo_j) :
    BlocksChained a b lo_i' lo_j' hi_i hi_j l := by
  cases h with
  | nil g1 g2 => exact .nil (by omega) (by omega)
  | cons g1 g2 g3 g4 g5 g6 g7 => exact .cons (by omega) (by omega) g3 g4 g5 g6 g7

theorem BlocksChained.le_bounds {a b : List α}
    {lo_i lo_j hi_i hi_j : Nat} {l : List (Nat × Nat × Nat)}
    (h : BlocksChained a b lo_i lo_j hi_i hi_j l) :
    lo_i ≤ hi_i ∧ lo_j ≤ hi_j := by
  induction l generalizing lo_i lo_j with
  | nil => cases h with | nil g1 g2 => exact ⟨g1, g2⟩
  | cons hd tl ih =>
    cases h with
    | cons g1 g2 g3 g4 g5 g6 g7 =>
      obtain ⟨e1, e2⟩ := ih g7
      exact ⟨by omega, by omega⟩

theorem BlocksChained.append_chain {a b : List α}
    {lo_i lo_j m_i m_j hi_i hi_j : Nat} {l1 l2 : List (Nat × Nat × Nat)}
    (h1 : BlocksChained a b lo_i lo_j m_i m_j l1)
    (h2 : BlocksChained a b m_i m_j hi_i hi_j l2) :
    BlocksChained a b lo_i lo_j hi_i hi_j (l1 ++ l2) := by
  induction l1 generalizing lo_i lo_j with
  | nil =>
    cases h1 with
    | nil g1 g2 => exact h2.mono g1 g2
  | cons hd tl ih =>
    cases h1 with
    | cons g1 g2 g3 g4 g5 g6 g7 =>
      have hrec := ih g7
      obtain ⟨e1, e2⟩ := hrec.le_bounds
      exact .cons g1 g2 g3 e1 e2 g6 hrec

theorem mbRec_chained (a b : List α) :
    ∀ fuel alo ahi blo bhi,
      (ahi - alo) + (bhi - blo) < fuel → alo ≤ ahi → blo ≤ bhi →
      BlocksChained a b alo blo ahi bhi (mbRec a b fuel alo ahi blo bhi) := by
  intro fuel
  induction fuel with
  | zero => intro alo ahi blo bhi hm _ _; omega
  | succ fuel ih =>
    intro alo ahi blo bhi hm ha hb
    rw [mbRec.eq_2]
    obtain ⟨v1, v2, v3, v4, v5⟩ := flm_valid a b alo ahi blo bhi ha hb
    set m := find_longest_match a b alo ahi blo bhi
    by_cases hz : m.size = 0
    · rw [if_pos hz]
      exact .nil ha hb
    · rw [if_neg hz]
      have hleft : BlocksChained a b alo blo m.bi m.bj
          (if alo < m.bi ∧ blo < m.bj then mbRec a b fuel alo m.bi blo m.bj
           else []) := by
        split
        · rename_i hc
          exact ih alo m.bi blo m.bj (by omega) (by omega) (by omega)
        · rename_i hc
          rw [Decidable.not_and_iff_or_not] at hc
          rcases hc with hc | hc
          · have : m.bi = alo := by omega
            exact .nil (by omega) (by omega)
          · have : m.bj = blo := by omega
            exact .nil (by omega) (by omega)
      have hmid : BlocksChained a b m.bi m.bj (m.bi + m.size) (m.bj + m.size)
          [(m.bi, m.bj, m.size)] :=
        .cons (le_refl _) (le_refl _) (by omega) (le_refl _) (le_refl _) v5
          (.nil (le_refl _) (le_refl _))
      have hright : BlocksChained a b (m.bi + m.size) (m.bj + m.size) ahi bhi
          (if m.bi + m.size < ahi ∧ m.bj + m.size < bhi
           then mbRec a b fuel (m.bi + m.size) ahi (m.bj + m.size) bhi
           else []) := by
        split
        · rename_i hc
          exact ih (m.bi + m.size) ahi (m.bj + m.size) bhi (by omega)
            (by omega) (by omega)
        · rename_i hc
          rw [Decidable.not_and_iff_or_not] at hc
          rcases hc with hc | hc
          · have : m.bi + m.size = ahi := by omega
            exact .nil (by omega) (by omega)
          · have : m.bj + m.size = bhi := by omega
            exact .nil (by omega) (by omega)
      rw [List.append_assoc]
      exact hleft.append_chain (hmid.append_chain hright)

/-- Validity of the collapsing pass: given a matching running block and a
chained tail starting at its end, the output is chained from the running
block's start. -/
theorem collapseAux_chained {a b : List α} {hi_i hi_j : Nat} :
    ∀ (l : List (Nat × Nat × Nat)) (i1 j1 k1 : Nat),
      MatchAt a b i1 j1 k1 → i1 + k1 ≤ hi_i → j1 + k1 ≤ hi_j →
      BlocksChained a b (i1 + k1) (j1 + k1) hi_i hi_j l →
      BlocksChained a b i1 j1 hi_i hi_j (collapseAux (i1, j1, k1) l) := by
  intro l
  induction l with
  | nil =>
    intro i1 j1 k1 hmatch h1 h2 hchain
    rw [collapseAux.eq_1]
    split
    · rename_i hk
      exact .cons (le_refl _) (le_refl _) (by omega) h1 h2 hmatch
        (.nil (by omega) (by omega))
    · exact .nil (by omega) (by omega)
  | cons hd tl ih =>
    intro i1 j1 k1 hmatch h1 h2 hchain
    obtain ⟨i2, j2, k2⟩ := hd
    cases hchain with
    | cons g1 g2 g3 g4 g5 g6 g7 =>
      rw [collapseAux.eq_2]
      by_cases hadj : i1 + k1 = i2 ∧ j1 + k1 = j2
      · rw [if_pos hadj]
        obtain ⟨ha1, ha2⟩ := hadj
        refine ih i1 j1 (k1 + k2) ?_ (by omega) (by omega) ?_
        · intro t ht
          rcases Nat.lt_or_ge t k1 with htk | htk
          · exact hmatch t htk
          · have e1 : i1 + t = i2 + (t - k1) := by omega
            have e2 : j1 + t = j2 + (t - k1) := by omega
            rw [e1, e2]
            exact g6 (t - k1) (by omega)
        · have e1 : i1 + (k1 + k2) = i2 + k2 := by omega
          have e2 : j1 + (k1 + k2) = j2 + k2 := by omega
          rw [e1, e2]
          exact g7
      · rw [if_neg hadj]
        have hrest : BlocksChained a b (i1 + k1) (j1 + k1) hi_i hi_j
            (collapseAux (i2, j2, k2) tl) :=
          (ih i2 j2 k2 g6 (by omega) (by omega) g7).mono g1 g2
        split
        · rename_i hk
          exact .cons (le_refl _) (le_refl _) (by omega) h1 h2 hmatch hrest
        · rename_i hk
          exact hrest.mono (by omega) (by omega)

/-- The collapsed blocks of `get_matching_blocks` (without the sentinel)
are chained over the full ranges. -/
theorem get_matching_blocks_chained (a b : List α) :
    BlocksChained a b 0 0 a.length b.length
      (collapseAux (0, 0, 0)
        (mbRec a b (a.length + b.length + 1) 0 a.length 0 b.length)) := by
  refine collapseAux_chained _ 0 0 0 ?_ (by omega) (by omega) ?_
  · intro t ht
    omega
  · exact mbRec_chained a b (a.length + b.length + 1) 0 a.length 0 b.length
      (by omega) (by omega) (by omega)

end SeqMatcher

/-! ### `get_opcodes` -/

inductive DTag where
  | replace : DTag
  | delete : DTag
  | insert : DTag
  | equal : DTag
deriving DecidableEq, Inhabited

structure Opcode where
  tag : DTag
  i1 : Nat
  i2 : Nat
  j1 : Nat
  j2 : Nat
deriving DecidableEq, Inhabited

section Opcodes

variable {α : Type} [DecidableEq α]

/-- The loop of `SequenceMatcher.get_opcodes` over the matching blocks
(the last of which is the sentinel). -/
def opcodesLoop : Nat → Nat → List (Nat × Nat × Nat) → List Opcode
  | _, _, [] => []
  | i, j, (ai, bj, size) :: rest =>
    (if i < ai ∧ j < bj then [⟨.replace, i, ai, j, bj⟩]
     else if i < ai then [⟨.delete, i, ai, j, bj⟩]
     else if j < bj then [⟨.insert, i, ai, j, bj⟩]
     else [])
    ++ (if size ≠ 0 then [⟨.equal, ai, ai + size, bj, bj + size⟩] else [])
    ++ opcodesLoop (ai + size) (bj + size) rest

def get_opcodes (a b : List α) : List Opcode :=
  opcodesLoop 0 0 (get_matching_blocks a b)

/-- Validity of an opcode list: starting at `(i, j)`, each opcode is
well-formed for its tag and they chain contiguously to `(ei, ej)`. -/
def OpsOK (a b : List α) : Nat → Nat → List Opcode → Nat → Nat → Prop
  | i, j, [], ei, ej => i = ei ∧ j = ej
  | i, j, c :: rest, ei, ej =>
    c.i1 = i ∧ c.j1 = j ∧ c.i2 ≤ a.length ∧ c.j2 ≤ b.length ∧
    (match c.tag with
     | .equal => c.i2 - c.i1 = c.j2 - c.j1 ∧ i < c.i2 ∧ j < c.j2 ∧
         MatchAt a b c.i1 c.j1 (c.i2 - c.i1)
     | .replace => i < c.i2 ∧ j < c.j2
     | .delete => i < c.i2 ∧ c.j2 = j
     | .insert => c.i2 = i ∧ j < c.j2) ∧
    OpsOK a b c.i2 c.j2 rest ei ej

theorem OpsOK.ops_le {a b : List α} :
    ∀ {ops : List Opcode} {i j ei ej : Nat},
      OpsOK a b i j ops ei ej → i ≤ ei ∧ j ≤ ej := by
  intro ops
  induction ops with
  | nil =>
    intro i j ei ej h
    obtain ⟨h1, h2⟩ := h
    omega
  | cons c rest ih =>
    intro i j ei ej h
    obtain ⟨h1, h2, h3, h4, htag, hrest⟩ := h
    obtain ⟨e1, e2⟩ := ih hrest
    have hi2 : i ≤ c.i2 ∧ j ≤ c.j2 := by
      cases hc : c.tag <;> rw [hc] at htag
      · obtain ⟨g1, g2⟩ := htag
        omega
      · obtain ⟨g1, g2⟩ := htag
        omega
      · obtain ⟨g1, g2⟩ := htag
        omega
      · obtain ⟨g1, g2, g3, -⟩ := htag
        omega
    omega

/-- Introduction form for `OpsOK` cons with clean components. -/
theorem OpsOK.consI {a b : List α} {i j ei ej : Nat} {t : DTag} {i2 j2 : Nat}
    {rest : List Opcode}
    (h3 : i2 ≤ a.length) (h4 : j2 ≤ b.length)
    (htag : match t with
     | .equal => i2 - i = j2 - j ∧ i < i2 ∧ j < j2 ∧ MatchAt a b i j (i2 - i)
     | .replace => i < i2 ∧ j < j2
     | .delete => i < i2 ∧ j2 = j
     | .insert => i2 = i ∧ j < j2)
    (hrest : OpsOK a b i2 j2 rest ei ej) :
    OpsOK a b i j (⟨t, i, i2, j, j2⟩ :: rest) ei ej := by
  refine ⟨rfl, rfl, h3, h4, ?_, hrest⟩
  cases t <;> exact htag

theorem opcodesLoop_ok {a b : List α} :
    ∀ (blocks : List (Nat × Nat × Nat)) (i j : Nat),
      BlocksChained a b i j a.length b.length blocks →
      OpsOK a b i j
        (opcodesLoop i j (blocks ++ [(a.length, b.length, 0)]))
        a.length b.length := by
  intro blocks
  induction blocks with
  | nil =>
    intro i j hchain
    cases hchain with
    | nil g1 g2 =>
      rw [List.nil_append, opcodesLoop.eq_2]
      have hnil : OpsOK a b a.length b.length
          ((if (0 : Nat) ≠ 0 then
              [⟨.equal, a.length, a.length + 0, b.length, b.length + 0⟩]
            else [])
            ++ opcodesLoop (a.length + 0) (b.length + 0) [])
          a.length b.length := by
        rw [if_neg (by omega), List.nil_append, opcodesLoop.eq_1]
        exact ⟨rfl, rfl⟩
      by_cases h1 : i < a.length ∧ j < b.length
      · rw [if_pos h1]
        exact OpsOK.consI (le_refl _) (le_refl _) ⟨h1.1, h1.2⟩ hnil
      · rw [if_neg h1]
        by_cases h2 : i < a.length
        · rw [if_pos h2]
          exact OpsOK.consI (le_refl _) (le_refl _) ⟨h2, by omega⟩ hnil
        · rw [if_neg h2]
          by_cases h3 : j < b.length
          · rw [if_pos h3]
            exact OpsOK.consI (le_refl _) (le_refl _) ⟨by omega, h3⟩ hnil
          · rw [if_neg h3]
            rw [List.nil_append, if_neg (by omega), List.nil_append,
              opcodesLoop.eq_1]
            exact ⟨by omega, by omega⟩
  | cons hd tl ih =>
    intro i j hchain
    obtain ⟨bi, bj, k⟩ := hd
    cases hchain with
    | cons g1 g2 g3 g4 g5 g6 g7 =>
      rw [List.cons_append, opcodesLoop.eq_2]
      have htail : OpsOK a b (bi + k) (bj + k)
          (opcodesLoop (bi + k) (bj + k) (tl ++ [(a.length, b.length, 0)]))
          a.length b.length := ih (bi + k) (bj + k) g7
      have hequal : OpsOK a b bi bj
          ((if k ≠ 0 then [⟨.equal, bi, bi + k, bj, bj + k⟩] else [])
            ++ opcodesLoop (bi + k) (bj + k) (tl ++ [(a.length, b.length, 0)]))
          a.length b.length := by
        rw [if_pos (by omega), List.singleton_append]
        refine OpsOK.consI (by omega) (by omega) ?_ htail
        refine ⟨by omega, by omega, by omega, ?_⟩
        rw [show bi + k - bi = k from by omega]
        exact g6
      by_cases h1 : i < bi ∧ j < bj
      · rw [if_pos h1, List.singleton_append]
        exact OpsOK.consI (by omega) (by omega) ⟨h1.1, h1.2⟩ hequal
      · rw [if_neg h1]
        by_cases h2 : i < bi
        · rw [if_pos h2, List.singleton_append]
          exact OpsOK.consI (by omega) (by omega) ⟨h2, by omega⟩ hequal
        · rw [if_neg h2]
          by_cases h3 : j < bj
          · rw [if_pos h3, List.singleton_append]
            exact OpsOK.consI (by omega) (by omega) ⟨by omega, h3⟩ hequal
          · rw [if_neg h3]
            have hi : i = bi := by omega
            have hj : j = bj := by omega
            subst hi hj
            simpa using hequal

/-- The lines an opcode contributes to `b` (the patched result): nothing
for a deletion, `b[j1:j2]` otherwise. -/
def opNewB (b : List α) (c : Opcode) : List α :=
  if c.tag = .delete then [] else seg b c.j1 c.j2

theorem opsOK_flatten_newB {a b : List α} :
    ∀ (ops : List Opcode) (i j ei ej : Nat),
      OpsOK a b i j ops ei ej →
      ((ops.map (opNewB b)).flatten : List α) = seg b j ej := by
  intro ops
  induction ops with
  | nil =>
    intro i j ei ej h
    obtain ⟨-, h2⟩ := h
    rw [h2]
    simp [seg_self]
  | cons c rest ih =>
    intro i j ei ej h
    obtain ⟨h1, h2, h3, h4, htag, hrest⟩ := h
    obtain ⟨e1, e2⟩ := OpsOK.ops_le hrest
    have hj2 : j ≤ c.j2 := by
      cases hc : c.tag <;> rw [hc] at htag
      · omega
      · omega
      · omega
      · obtain ⟨-, -, g3, -⟩ := htag
        omega
    rw [List.map_cons, List.flatten_cons, ih c.i2 c.j2 ei ej hrest,
      seg_split b hj2 e2]
    congr 1
    unfold opNewB
    by_cases hdel : c.tag = .delete
    · rw [if_pos hdel]
      rw [hdel] at htag
      obtain ⟨-, g2⟩ := htag
      rw [g2, seg_self]
    · rw [if_neg hdel, h2]

theorem opsOK_all_equal_seg {a b : List α} :
    ∀ (ops : List Opcode) (i j ei ej : Nat),
      OpsOK a b i j ops ei ej →
      (∀ c ∈ ops, c.tag = DTag.equal) →
      seg a i ei = seg b j ej := by
  intro ops
  induction ops with
  | nil =>
    intro i j ei ej h _
    obtain ⟨h1, h2⟩ := h
    rw [h1, h2, seg_self, seg_self]
  | cons c rest ih =>
    intro i j ei ej h hall
    obtain ⟨h1, h2, h3, h4, htag, hrest⟩ := h
    obtain ⟨e1, e2⟩ := OpsOK.ops_le hrest
    have hce : c.tag = DTag.equal := hall c (List.mem_cons_self _ _)
    rw [hce] at htag
    obtain ⟨g1, g2, g3, g4⟩ := htag
    have hseg : seg a i c.i2 = seg b j c.j2 := by
      have := seg_congr g4
      rw [h1, h2] at this
      rw [show i + (c.i2 - i) = c.i2 from by omega] at this
      rw [show j + (c.i2 - i) = c.j2 from by
        rw [h1, h2] at g1
        omega] at this
      exact this
    rw [seg_split a (show i ≤ c.i2 from by omega) e1,
      seg_split b (show j ≤ c.j2 from by omega) e2, hseg,
      ih c.i2 c.j2 ei ej hrest
        (fun x hx => hall x (List.mem_cons_of_mem _ hx))]

end Opcodes

/-! ### `get_grouped_opcodes`, the unified-diff rendering and
`crawl.compute_diff`

A group is rendered as one `@@` hunk.  The structured form of the rendered
diff is kept as a `Hunk`: the `@@` header ranges plus the tagged body lines
(tag `' '` context, `'-'` removed, `'+'` added) — exactly what
`unified_diff` yields for the group. -/

/-- Truncation keeping the head of an equal opcode (trailing context). -/
def eqHead (n : Nat) (c : Opcode) : Opcode :=
  ⟨c.tag, c.i1, min c.i2 (c.i1 + n), c.j1, min c.j2 (c.j1 + n)⟩

/-- Truncation keeping the tail of an equal opcode (leading context). -/
def eqTail (n : Nat) (c : Opcode) : Opcode :=
  ⟨c.tag, max c.i1 (c.i2 - n), c.i2, max c.j1 (c.j2 - n), c.j2⟩

/-- `codes[0]` fixup of `get_grouped_opcodes`. -/
def fixHead (n : Nat) : List Opcode → List Opcode
  | [] => []
  | c :: rest => (if c.tag = DTag.equal then eqTail n c else c) :: rest

/-- `codes[-1]` fixup of `get_grouped_opcodes`. -/
def fixLast (n : Nat) : List Opcode → List Opcode
  | [] => []
  | [c] => [if c.tag = DTag.equal then eqHead n c else c]
  | c :: rest => c :: fixLast n rest

/-- The grouping loop of `get_grouped_opcodes`: a large equal range ends
the current group (keeping `n` lines of trailing context) and starts the
next one (keeping `n` lines of leading context); the final group is
dropped when empty or a lone equal opcode. -/
def groupLoop (n : Nat) : List Opcode → List Opcode → List (List Opcode)
  | group, [] =>
    match group with
    | [] => []
    | [g] => if g.tag = DTag.equal then [] else [[g]]
    | _ => [group]
  | group, c :: rest =>
    if c.tag = DTag.equal ∧ n + n < c.i2 - c.i1 then
      (group ++ [eqHead n c]) :: groupLoop n [eqTail n c] rest
    else groupLoop n (group ++ [c]) rest

section Grouped

variable {α : Type} [DecidableEq α]

/-- `SequenceMatcher.get_grouped_opcodes(n)`. -/
def get_grouped_opcodes (a b : List α) (n : Nat) : List (List Opcode) :=
  groupLoop n []
    (fixLast n (fixHead n
      (if get_opcodes a b = [] then [⟨DTag.equal, 0, 1, 0, 1⟩]
       else get_opcodes a b)))

/-- One rendered hunk: the `@@` ranges and the tagged body lines. -/
structure Hunk (L : Type) where
  fromStart : Nat
  fromEnd : Nat
  toStart : Nat
  toEnd : Nat
  body : List (Char × L)
deriving DecidableEq

/-- The tagged lines `unified_diff` yields for one group. -/
def hunkBody (a b : List α) : List Opcode → List (Char × α)
  | [] => []
  | c :: rest =>
    (match c.tag with
     | DTag.equal => (seg a c.i1 c.i2).map (fun l => (' ', l))
     | DTag.replace => (seg a c.i1 c.i2).map (fun l => ('-', l))
         ++ (seg b c.j1 c.j2).map (fun l => ('+', l))
     | DTag.delete => (seg a c.i1 c.i2).map (fun l => ('-', l))
     | DTag.insert => (seg b c.j1 c.j2).map (fun l => ('+', l)))
    ++ hunkBody a b rest

/-- The hunk `unified_diff` renders for one group: ranges from the group's
first and last opcodes, body from the per-opcode loop. -/
def hunkOfGroup (a b : List α) (g : List Opcode) : Hunk α :=
  ⟨g.headI.i1, (g.getLastD default).i2, g.headI.j1, (g.getLastD default).j2,
   hunkBody a b g⟩

def hunksOf (a b : List α) (gs : List (List Opcode)) : List (Hunk α) :=
  gs.map (hunkOfGroup a b)

end Grouped

/-- `difflib._format_range_unified`. -/
def formatRangeUnified (start stop : Nat) : String :=
  if stop - start = 1 then toString (start + 1)
  else toString (if stop - start = 0 then start else start + 1) ++ ","
    ++ toString (stop - start)

/-- The text `unified_diff` yields for one hunk: the `@@` header line then
each tagged body line (tag character prepended to the line). -/
def renderHunk (h : Hunk (List Char)) : List Char :=
  ("@@ -" ++ formatRangeUnified h.fromStart h.fromEnd ++ " +"
    ++ formatRangeUnified h.toStart h.toEnd ++ " @@\n").toList
  ++ (h.body.map (fun tl => tl.1 :: tl.2)).flatten

/-- `crawl.compute_diff`:
`''.join(difflib.unified_diff(a_src.splitlines(True), b_src.splitlines(True)))`
with `unified_diff`'s defaults (`fromfile = tofile = ''`, `lineterm = '\n'`,
`n = 3`); the two `---`/`+++` header lines are emitted before the first
group only. -/
def compute_diff (a_src b_src : List Char) : List Char :=
  match hunksOf (splitlinesKE a_src) (splitlinesKE b_src)
      (get_grouped_opcodes (splitlinesKE a_src) (splitlinesKE b_src) 3) with
  | [] => []
  | h :: hs =>
    ("--- \n+++ \n").toList ++ ((h :: hs).map renderHunk).flatten

/-- The lines a hunk's body contributes to the patched file: the context
and added lines, in order (the standard unified-diff patch semantics). -/
def hunkNewLines (h : Hunk L) : List L :=
  h.body.filterMap (fun tl => if tl.1 = '-' then none else some tl.2)

/-- Apply a unified diff, given as structured hunks, to the line list `a`:
copy `a` up to each hunk's from-range, replace that range by the hunk's
context-and-added lines, and copy the remainder after the last hunk. -/
def applyHunks (a : List L) : Nat → List (Hunk L) → List L
  | pos, [] => seg a pos a.length
  | pos, h :: rest =>
    seg a pos h.fromStart ++ hunkNewLines h ++ applyHunks a h.fromEnd rest

/-! ### The diff of a sequence with itself is empty -/

section SelfDiff

variable {α : Type} [DecidableEq α]

theorem mbRec_self (a : List α) :
    mbRec a a (a.length + a.length + 1) 0 a.length 0 a.length =
      if a.length = 0 then [] else [(0, 0, a.length)] := by
  rw [mbRec.eq_2, flm_self a 0 a.length (by omega)]
  by_cases h : a.length = 0
  · rw [if_pos h]
    rw [if_pos (show (⟨0, 0, a.length - 0⟩ : BestMatch).size = 0 from by
      show a.length - 0 = 0
      omega)]
  · rw [if_neg h]
    rw [if_neg (show ¬((⟨0, 0, a.length - 0⟩ : BestMatch).size = 0) from by
      show ¬(a.length - 0 = 0)
      omega)]
    rw [if_neg (show ¬((0:Nat) < (⟨0, 0, a.length - 0⟩ : BestMatch).bi ∧
        (0:Nat) < (⟨0, 0, a.length - 0⟩ : BestMatch).bj) from by
      show ¬((0:Nat) < 0 ∧ (0:Nat) < 0)
      omega)]
    rw [if_neg (show ¬((⟨0, 0, a.length - 0⟩ : BestMatch).bi +
        (⟨0, 0, a.length - 0⟩ : BestMatch).size < a.length ∧
        (⟨0, 0, a.length - 0⟩ : BestMatch).bj +
        (⟨0, 0, a.length - 0⟩ : BestMatch).size < a.length) from by
      show ¬(0 + (a.length - 0) < a.length ∧ 0 + (a.length - 0) < a.length)
      omega)]
    show [] ++ [(0, 0, a.length - 0)] ++ [] = [(0, 0, a.length)]
    simp

theorem get_matching_blocks_self (a : List α) :
    get_matching_blocks a a =
      if a.length = 0 then [(0, 0, 0)]
      else [(0, 0, a.length), (a.length, a.length, 0)] := by
  unfold get_matching_blocks
  rw [mbRec_self]
  by_cases h : a.length = 0
  · rw [if_pos h, if_pos h]
    rw [collapseAux.eq_1, if_neg (by omega)]
    simp [h]
  · rw [if_neg h, if_neg h]
    rw [collapseAux.eq_2, if_pos ⟨rfl, rfl⟩, collapseAux.eq_1,
      if_pos (by omega)]
    simp

theorem get_opcodes_self (a : List α) :
    get_opcodes a a =
      if a.length = 0 then []
      else [⟨DTag.equal, 0, a.length, 0, a.length⟩] := by
  unfold get_opcodes
  rw [get_matching_blocks_self]
  by_cases h : a.length = 0
  · rw [if_pos h, if_pos h, opcodesLoop.eq_2]
    rw [if_neg (by omega), if_neg (by omega), if_neg (by omega),
      if_neg (by omega)]
    simp [opcodesLoop.eq_1]
  · rw [if_neg h, if_neg h, opcodesLoop.eq_2]
    rw [if_neg (by omega), if_neg (by omega), if_neg (by omega),
      if_pos (by omega)]
    rw [opcodesLoop.eq_2]
    rw [if_neg (by omega), if_neg (by omega), if_neg (by omega),
      if_neg (by omega)]
    simp [opcodesLoop.eq_1]

theorem get_grouped_opcodes_self (a : List α) :
    get_grouped_opcodes a a 3 = [] := by
  unfold get_grouped_opcodes
  rw [get_opcodes_self]
  by_cases h : a.length = 0
  · rw [if_pos h]
    rw [if_pos rfl]
    rw [show fixLast 3 (fixHead 3 [(⟨DTag.equal, 0, 1, 0, 1⟩ : Opcode)]) =
        [(⟨DTag.equal, 0, 1, 0, 1⟩ : Opcode)] from by decide]
    rw [groupLoop.eq_4, if_neg (by
      intro hc
      have h2 := hc.2
      revert h2
      decide)]
    rw [show ([] ++ [(⟨DTag.equal, 0, 1, 0, 1⟩ : Opcode)]) =
      [(⟨DTag.equal, 0, 1, 0, 1⟩ : Opcode)] from rfl]
    rw [groupLoop.eq_2]
    rw [if_pos rfl]
  · rw [if_neg h]
    rw [if_neg (by simp)]
    have hfix : fixLast 3 (fixHead 3
        [(⟨DTag.equal, 0, a.length, 0, a.length⟩ : Opcode)]) =
        [(⟨DTag.equal, max 0 (a.length - 3),
            min a.length (max 0 (a.length - 3) + 3),
            max 0 (a.length - 3),
            min a.length (max 0 (a.length - 3) + 3)⟩ : Opcode)] := by
      show fixLast 3 ((if DTag.equal = DTag.equal
          then eqTail 3 ⟨DTag.equal, 0, a.length, 0, a.length⟩
          else ⟨DTag.equal, 0, a.length, 0, a.length⟩) :: []) = _
      rw [if_pos rfl]
      show [if DTag.equal = DTag.equal
        then eqHead 3 (eqTail 3 ⟨DTag.equal, 0, a.length, 0, a.length⟩)
        else eqTail 3 ⟨DTag.equal, 0, a.length, 0, a.length⟩] = _
      rw [if_pos rfl]
      rfl
    rw [hfix]
    set s := max 0 (a.length - 3) with hs
    set e := min a.length (s + 3) with he
    rw [groupLoop.eq_4, if_neg (by
      intro hc
      have h2 := hc.2
      show False
      have he2 : e - s ≤ 3 := by omega
      have : (⟨DTag.equal, s, e, s, e⟩ : Opcode).i2 -
          (⟨DTag.equal, s, e, s, e⟩ : Opcode).i1 = e - s := rfl
      omega)]
    rw [show ([] ++ [(⟨DTag.equal, s, e, s, e⟩ : Opcode)]) =
      [(⟨DTag.equal, s, e, s, e⟩ : Opcode)] from rfl]
    rw [groupLoop.eq_2]
    rw [if_pos rfl]

/-- `compute_diff` of two identical texts is the empty string. -/
theorem compute_diff_self (t : List Char) : compute_diff t t = [] := by
  unfold compute_diff
  rw [get_grouped_opcodes_self]
  rfl

end SelfDiff

/-! ### Round trip: applying the rendered hunks to `a` rebuilds `b` -/

section RoundTrip

variable {α : Type} [DecidableEq α]

theorem OpsOK.append_ops {a b : List α} :
    ∀ {l1 l2 : List Opcode} {i j p q e f : Nat},
      OpsOK a b i j l1 p q → OpsOK a b p q l2 e f →
      OpsOK a b i j (l1 ++ l2) e f := by
  intro l1
  induction l1 with
  | nil =>
    intro l2 i j p q e f h1 h2
    obtain ⟨g1, g2⟩ := h1
    rw [List.nil_append, g1, g2]
    exact h2
  | cons c rest ih =>
    intro l2 i j p q e f h1 h2
    obtain ⟨g1, g2, g3, g4, g5, g6⟩ := h1
    exact ⟨g1, g2, g3, g4, g5, ih g6 h2⟩

theorem opsOK_head_last {a b : List α} :
    ∀ {g : List Opcode} {i j ei ej : Nat},
      OpsOK a b i j g ei ej → g ≠ [] →
      g.headI.i1 = i ∧ g.headI.j1 = j ∧
      (g.getLastD default).i2 = ei ∧ (g.getLastD default).j2 = ej := by
  intro g
  induction g with
  | nil => intro i j ei ej _ hne; exact absurd rfl hne
  | cons c rest ih =>
    intro i j ei ej h _
    obtain ⟨g1, g2, g3, g4, g5, g6⟩ := h
    rcases hrest : rest with - | ⟨d, rest'⟩
    · subst hrest
      obtain ⟨e1, e2⟩ := g6
      exact ⟨g1, g2, e1, e2⟩
    · subst hrest
      obtain ⟨-, -, f3, f4⟩ := ih g6 (by simp)
      refine ⟨g1, g2, ?_, ?_⟩
      · rw [List.getLastD_cons, ← f3]
        rfl
      · rw [List.getLastD_cons, ← f4]
        rfl

/-- The context-and-added lines of a group's body are exactly the `b`-side
segment the group covers. -/
theorem hunkBody_newLines {a b : List α} :
    ∀ (g : List Opcode) (i j ei ej : Nat),
      OpsOK a b i j g ei ej →
      (hunkBody a b g).filterMap
          (fun tl => if tl.1 = '-' then none else some tl.2) =
        seg b j ej := by
  intro g
  induction g with
  | nil =>
    intro i j ei ej h
    obtain ⟨-, h2⟩ := h
    rw [hunkBody.eq_1]
    rw [h2]
    simp [seg_self]
  | cons c rest ih =>
    intro i j ei ej h
    obtain ⟨h1, h2, h3, h4, htag, hrest⟩ := h
    obtain ⟨e1, e2⟩ := OpsOK.ops_le hrest
    rw [hunkBody.eq_2, List.filterMap_append, ih c.i2 c.j2 ei ej hrest]
    have hj2 : j ≤ c.j2 := by
      cases hc : c.tag <;> rw [hc] at htag
      · omega
      · omega
      · omega
      · obtain ⟨-, -, g3, -⟩ := htag
        omega
    rw [seg_split b hj2 e2]
    congr 1
    cases hc : c.tag <;> rw [hc] at htag
    · show ((seg a c.i1 c.i2).map (fun l => ('-', l))
        ++ (seg b c.j1 c.j2).map (fun l => ('+', l))).filterMap _ = _
      rw [List.filterMap_append]
      rw [List.filterMap_map, List.filterMap_map]
      rw [show (List.filterMap ((fun tl : Char × α =>
          if tl.1 = '-' then none else some tl.2) ∘ fun l => ((('-' : Char), l)))
          (seg a c.i1 c.i2)) = [] from by
        rw [List.filterMap_eq_nil]
        intro x hx
        rfl]
      rw [show (List.filterMap ((fun tl : Char × α =>
          if tl.1 = '-' then none else some tl.2) ∘ fun l => ((('+' : Char), l)))
          (seg b c.j1 c.j2)) = seg b c.j1 c.j2 from by
        have : ((fun tl : Char × α =>
            if tl.1 = '-' then none else some tl.2) ∘ fun l => ((('+' : Char), l)))
            = fun l => some l := by
          funext l
          rfl
        rw [this, List.filterMap_some]]
      rw [List.nil_append, h2]
    · show ((seg a c.i1 c.i2).map (fun l => ('-', l))).filterMap _ = _
      rw [List.filterMap_map]
      rw [show (List.filterMap ((fun tl : Char × α =>
          if tl.1 = '-' then none else some tl.2) ∘ fun l => ((('-' : Char), l)))
          (seg a c.i1 c.i2)) = [] from by
        rw [List.filterMap_eq_nil]
        intro x hx
        rfl]
      obtain ⟨-, g2⟩ := htag
      rw [g2, seg_self]
    · show ((seg b c.j1 c.j2).map (fun l => ('+', l))).filterMap _ = _
      rw [List.filterMap_map]
      rw [show ((fun tl : Char × α =>
          if tl.1 = '-' then none else some tl.2) ∘ fun l => ((('+' : Char), l)))
          = fun l => some l from by
        funext l
        rfl]
      rw [List.filterMap_some, h2]
    · show ((seg a c.i1 c.i2).map (fun l => (' ', l))).filterMap _ = _
      rw [List.filterMap_map]
      rw [show ((fun tl : Char × α =>
          if tl.1 = '-' then none else some tl.2) ∘ fun l => (((' ' : Char), l)))
          = fun l => some l from by
        funext l
        rfl]
      rw [List.filterMap_some]
      obtain ⟨g1, g2, g3, g4⟩ := htag
      have := seg_congr g4
      rw [h1, h2] at this
      rw [show i + (c.i2 - i) = c.i2 from by omega] at this
      rw [show j + (c.i2 - i) = c.j2 from by
        rw [h1, h2] at g1
        omega] at this
      rw [← h1, ← h2] at this
      rw [this, h2]

/-- The groups of a grouped opcode list, positioned: before the first group
and between consecutive groups, `a` and `b` agree (segment-wise), each group
is a valid opcode chain, and after the last group `a` and `b` agree up to
their ends. -/
def GroupsOK (a b : List α) : Nat → Nat → List (List Opcode) → Prop
  | c_i, c_j, [] => c_i ≤ a.length ∧ c_j ≤ b.length ∧
      seg a c_i a.length = seg b c_j b.length
  | c_i, c_j, g :: gs => ∃ s_i s_j p_i p_j,
      c_i ≤ s_i ∧ c_j ≤ s_j ∧ seg a c_i s_i = seg b c_j s_j ∧
      g ≠ [] ∧ OpsOK a b s_i s_j g p_i p_j ∧ GroupsOK a b p_i p_j gs

theorem GroupsOK.weaken {a b : List α} :
    ∀ {gs : List (List Opcode)} {s_i s_j c_i c_j : Nat},
      GroupsOK a b s_i s_j gs → c_i ≤ s_i → c_j ≤ s_j →
      seg a c_i s_i = seg b c_j s_j →
      GroupsOK a b c_i c_j gs := by
  intro gs
  cases gs with
  | nil =>
    intro s_i s_j c_i c_j h h1 h2 hseg
    obtain ⟨g1, g2, g3⟩ := h
    refine ⟨by omega, by omega, ?_⟩
    rw [seg_split a h1 g1, seg_split b h2 g2, hseg, g3]
  | cons g gs =>
    intro s_i s_j c_i c_j h h1 h2 hseg
    obtain ⟨t_i, t_j, p_i, p_j, g1, g2, g3, g4, g5, g6⟩ := h
    refine ⟨t_i, t_j, p_i, p_j, by omega, by omega, ?_, g4, g5, g6⟩
    rw [seg_split a h1 g1, seg_split b h2 g2, hseg, g3]

theorem GroupsOK.le_len {a b : List α} :
    ∀ {gs : List (List Opcode)} {c_i c_j : Nat},
      GroupsOK a b c_i c_j gs → c_i ≤ a.length ∧ c_j ≤ b.length := by
  intro gs
  induction gs with
  | nil =>
    intro c_i c_j h
    exact ⟨h.1, h.2.1⟩
  | cons g gs ih =>
    intro c_i c_j h
    obtain ⟨s_i, s_j, p_i, p_j, g1, g2, g3, g4, g5, g6⟩ := h
    obtain ⟨e1, e2⟩ := OpsOK.ops_le g5
    obtain ⟨f1, f2⟩ := ih g6
    omega

/-- Applying the hunks of positioned groups reproduces the rest of `b`. -/
theorem groupsOK_apply {a b : List α} :
    ∀ (gs : List (List Opcode)) (c_i c_j : Nat),
      GroupsOK a b c_i c_j gs →
      applyHunks a c_i (hunksOf a b gs) = seg b c_j b.length := by
  intro gs
  induction gs with
  | nil =>
    intro c_i c_j h
    obtain ⟨g1, g2, g3⟩ := h
    exact g3
  | cons g gs ih =>
    intro c_i c_j h
    obtain ⟨s_i, s_j, p_i, p_j, g1, g2, g3, g4, g5, g6⟩ := h
    obtain ⟨e1, e2⟩ := OpsOK.ops_le g5
    obtain ⟨f1, f2⟩ := GroupsOK.le_len g6
    obtain ⟨k1, k2, k3, k4⟩ := opsOK_head_last g5 g4
    show seg a c_i (hunkOfGroup a b g).fromStart
        ++ hunkNewLines (hunkOfGroup a b g)
        ++ applyHunks a (hunkOfGroup a b g).fromEnd (hunksOf a b gs)
      = seg b c_j b.length
    have hfs : (hunkOfGroup a b g).fromStart = s_i := by
      show g.headI.i1 = s_i
      rw [k1]
    have hfe : (hunkOfGroup a b g).fromEnd = p_i := by
      show (g.getLastD default).i2 = p_i
      rw [k3]
    have hnl : hunkNewLines (hunkOfGroup a b g) = seg b s_j p_j := by
      show (hunkBody a b g).filterMap _ = seg b s_j p_j
      exact hunkBody_newLines g s_i s_j p_i p_j g5
    rw [hfs, hfe, hnl, ih p_i p_j g6, g3]
    rw [seg_split b g2 (show s_j ≤ b.length from by omega),
      seg_split b e2 f2]
    rw [List.append_assoc]

/-- Master invariant of the grouping loop: if the accumulated group chains
from `(s_i, s_j)` to `(p_i, p_j)`, the remaining opcodes chain on to
`(e_i, e_j)`, and the suffixes beyond `(e_i, e_j)` agree, then the produced
groups are correctly positioned from `(s_i, s_j)`. -/
theorem groupLoop_ok {a b : List α} {n : Nat} (hn : 1 ≤ n) :
    ∀ (codes : List Opcode) (g : List Opcode) (s_i s_j p_i p_j e_i e_j : Nat),
      OpsOK a b s_i s_j g p_i p_j →
      OpsOK a b p_i p_j codes e_i e_j →
      seg a e_i a.length = seg b e_j b.length →
      e_i ≤ a.length → e_j ≤ b.length →
      GroupsOK a b s_i s_j (groupLoop n g codes) := by
  intro codes
  induction codes with
  | nil =>
    intro g s_i s_j p_i p_j e_i e_j hg hcodes hsuf he1 he2
    obtain ⟨q1, q2⟩ := hcodes
    subst q1 q2
    rcases g with - | ⟨x, g'⟩
    · rw [groupLoop.eq_1]
      obtain ⟨r1, r2⟩ := hg
      subst r1 r2
      exact ⟨he1, he2, hsuf⟩
    · rcases g' with - | ⟨y, g''⟩
      · rw [groupLoop.eq_2]
        by_cases hx : x.tag = DTag.equal
        · rw [if_pos hx]
          obtain ⟨w1, w2⟩ := OpsOK.ops_le hg
          have hseg : seg a s_i p_i = seg b s_j p_j :=
            opsOK_all_equal_seg [x] s_i s_j p_i p_j hg (by
              intro cc hcc
              rw [List.mem_singleton.mp hcc]
              exact hx)
          refine ⟨by omega, by omega, ?_⟩
          rw [seg_split a w1 he1, seg_split b w2 he2, hseg, hsuf]
        · rw [if_neg hx]
          refine ⟨s_i, s_j, p_i, p_j, le_refl _, le_refl _,
            by rw [seg_self, seg_self], by simp, hg, he1, he2, hsuf⟩
      · rw [groupLoop.eq_3 n (x :: y :: g'') (by simp) (by
          intro gg hgg
          simp at hgg)]
        refine ⟨s_i, s_j, p_i, p_j, le_refl _, le_refl _,
          by rw [seg_self, seg_self], by simp, hg, he1, he2, hsuf⟩
  | cons c rest ih =>
    intro g s_i s_j p_i p_j e_i e_j hg hcodes hsuf he1 he2
    obtain ⟨ctag, ci1, ci2, cj1, cj2⟩ := c
    obtain ⟨h1, h2, h3, h4, htag, hrest⟩ := hcodes
    have h1' : ci1 = p_i := h1
    have h2' : cj1 = p_j := h2
    subst h1' h2'
    have h3' : ci2 ≤ a.length := h3
    have h4' : cj2 ≤ b.length := h4
    rw [groupLoop.eq_4]
    by_cases hsplit : (⟨ctag, ci1, ci2, cj1, cj2⟩ : Opcode).tag = DTag.equal ∧
        n + n < (⟨ctag, ci1, ci2, cj1, cj2⟩ : Opcode).i2 -
          (⟨ctag, ci1, ci2, cj1, cj2⟩ : Opcode).i1
    · rw [if_pos hsplit]
      obtain ⟨hceq, hlen⟩ := hsplit
      have hceq' : ctag = DTag.equal := hceq
      subst hceq'
      have hlen' : n + n < ci2 - ci1 := hlen
      obtain ⟨t1, t2, t3, t4⟩ := htag
      have ht1 : ci2 - ci1 = cj2 - cj1 := t1
      have ht4 : MatchAt a b ci1 cj1 (ci2 - ci1) := t4
      have hin : ci1 + n ≤ ci2 := by omega
      have hjn : cj1 + n ≤ cj2 := by omega
      have hEH : eqHead n (⟨DTag.equal, ci1, ci2, cj1, cj2⟩ : Opcode) =
          ⟨DTag.equal, ci1, ci1 + n, cj1, cj1 + n⟩ := by
        show (⟨DTag.equal, ci1, min ci2 (ci1 + n), cj1,
          min cj2 (cj1 + n)⟩ : Opcode) = _
        rw [show min ci2 (ci1 + n) = ci1 + n from by omega,
          show min cj2 (cj1 + n) = cj1 + n from by omega]
      have hET : eqTail n (⟨DTag.equal, ci1, ci2, cj1, cj2⟩ : Opcode) =
          ⟨DTag.equal, ci2 - n, ci2, cj2 - n, cj2⟩ := by
        show (⟨DTag.equal, max ci1 (ci2 - n), ci2, max cj1 (cj2 - n),
          cj2⟩ : Opcode) = _
        rw [show max ci1 (ci2 - n) = ci2 - n from by omega,
          show max cj1 (cj2 - n) = cj2 - n from by omega]
      rw [hEH, hET]
      have hopsHead : OpsOK a b ci1 cj1
          [⟨DTag.equal, ci1, ci1 + n, cj1, cj1 + n⟩] (ci1 + n) (cj1 + n) := by
        refine OpsOK.consI (by omega) (by omega) ?_ ⟨rfl, rfl⟩
        refine ⟨by omega, by omega, by omega, ?_⟩
        intro t ht
        rw [show ci1 + n - ci1 = n from by omega] at ht
        exact ht4 t (by omega)
      have hopsTail : OpsOK a b (ci2 - n) (cj2 - n)
          [⟨DTag.equal, ci2 - n, ci2, cj2 - n, cj2⟩] ci2 cj2 := by
        refine OpsOK.consI (by omega) (by omega) ?_ ⟨rfl, rfl⟩
        refine ⟨by omega, by omega, by omega, ?_⟩
        intro t ht
        rw [show ci2 - (ci2 - n) = n from by omega] at ht
        have e1 : ci2 - n + t = ci1 + (ci2 - n - ci1 + t) := by omega
        have e2 : cj2 - n + t = cj1 + (ci2 - n - ci1 + t) := by omega
        rw [e1, e2]
        exact ht4 _ (by omega)
      have hrecs : GroupsOK a b (ci2 - n) (cj2 - n)
          (groupLoop n [⟨DTag.equal, ci2 - n, ci2, cj2 - n, cj2⟩] rest) :=
        ih _ (ci2 - n) (cj2 - n) ci2 cj2 e_i e_j hopsTail hrest hsuf he1 he2
      have hgap : seg a (ci1 + n) (ci2 - n) = seg b (cj1 + n) (cj2 - n) := by
        have := seg_congr (a := a) (b := b) (i := ci1 + n) (j := cj1 + n)
          (n := ci2 - n - (ci1 + n)) (by
            intro t ht
            have e1 : ci1 + n + t = ci1 + (n + t) := by omega
            have e2 : cj1 + n + t = cj1 + (n + t) := by omega
            rw [e1, e2]
            exact ht4 _ (by omega))
        rw [show ci1 + n + (ci2 - n - (ci1 + n)) = ci2 - n from by omega,
          show cj1 + n + (ci2 - n - (ci1 + n)) = cj2 - n from by omega] at this
        exact this
      refine ⟨s_i, s_j, ci1 + n, cj1 + n, le_refl _, le_refl _,
        by rw [seg_self, seg_self], by simp, hg.append_ops hopsHead, ?_⟩
      exact hrecs.weaken (by omega) (by omega) hgap
    · rw [if_neg hsplit]
      have hcop : OpsOK a b ci1 cj1
          [(⟨ctag, ci1, ci2, cj1, cj2⟩ : Opcode)] ci2 cj2 :=
        ⟨rfl, rfl, h3, h4, htag, rfl, rfl⟩
      exact ih (g ++ [⟨ctag, ci1, ci2, cj1, cj2⟩]) s_i s_j ci2 cj2 e_i e_j
        (hg.append_ops hcop) hrest hsuf he1 he2

/-- `get_opcodes` is a valid opcode chain from `(0, 0)` to the two
lengths. -/
theorem get_opcodes_ok (a b : List α) :
    OpsOK a b 0 0 (get_opcodes a b) a.length b.length := by
  show OpsOK a b 0 0
    (opcodesLoop 0 0
      (collapseAux (0, 0, 0)
        (mbRec a b (a.length + b.length + 1) 0 a.length 0 b.length)
       ++ [(a.length, b.length, 0)]))
    a.length b.length
  exact opcodesLoop_ok _ 0 0 (get_matching_blocks_chained a b)

/-- The `codes[0]` fixup keeps the chain valid, moving the start forward
over an initial agreeing slice. -/
theorem fixHead_ok {a b : List α} {n : Nat} (hn : 1 ≤ n) :
    ∀ {codes : List Opcode} {i j ei ej : Nat},
      OpsOK a b i j codes ei ej →
      ∃ s_i s_j, i ≤ s_i ∧ j ≤ s_j ∧ seg a i s_i = seg b j s_j ∧
        OpsOK a b s_i s_j (fixHead n codes) ei ej := by
  intro codes i j ei ej h
  cases codes with
  | nil => exact ⟨i, j, le_refl _, le_refl _, by rw [seg_self, seg_self], h⟩
  | cons c rest =>
    obtain ⟨ctag, ci1, ci2, cj1, cj2⟩ := c
    obtain ⟨h1, h2, h3, h4, htag, hrest⟩ := h
    have h1' : ci1 = i := h1
    have h2' : cj1 = j := h2
    subst h1' h2'
    have h3' : ci2 ≤ a.length := h3
    have h4' : cj2 ≤ b.length := h4
    by_cases hx : ctag = DTag.equal
    · subst hx
      obtain ⟨t1, t2, t3, t4⟩ := htag
      have ht1 : ci2 - ci1 = cj2 - cj1 := t1
      have ht2 : ci1 < ci2 := t2
      have ht3 : cj1 < cj2 := t3
      have ht4 : MatchAt a b ci1 cj1 (ci2 - ci1) := t4
      have hfix : fixHead n ((⟨DTag.equal, ci1, ci2, cj1, cj2⟩ : Opcode)
            :: rest) =
          (⟨DTag.equal, max ci1 (ci2 - n), ci2, max cj1 (cj2 - n), cj2⟩
            : Opcode) :: rest := by
        show (if DTag.equal = DTag.equal then
            eqTail n ⟨DTag.equal, ci1, ci2, cj1, cj2⟩
          else (⟨DTag.equal, ci1, ci2, cj1, cj2⟩ : Opcode)) :: rest = _
        rw [if_pos rfl]
        rfl
      have hpre : seg a ci1 (max ci1 (ci2 - n))
          = seg b cj1 (max cj1 (cj2 - n)) := by
        have := seg_congr (a := a) (b := b) (i := ci1) (j := cj1)
          (n := max ci1 (ci2 - n) - ci1) (by
            intro t ht
            exact ht4 t (by omega))
        rw [show ci1 + (max ci1 (ci2 - n) - ci1) = max ci1 (ci2 - n)
              from by omega,
            show cj1 + (max ci1 (ci2 - n) - ci1) = max cj1 (cj2 - n)
              from by omega] at this
        exact this
      refine ⟨max ci1 (ci2 - n), max cj1 (cj2 - n), by omega, by omega,
        hpre, ?_⟩
      rw [hfix]
      refine OpsOK.consI h3' h4' ?_ hrest
      refine ⟨by omega, by omega, by omega, ?_⟩
      intro t ht
      have e1 : max ci1 (ci2 - n) + t
          = ci1 + (max ci1 (ci2 - n) - ci1 + t) := by omega
      have e2 : max cj1 (cj2 - n) + t
          = cj1 + (max ci1 (ci2 - n) - ci1 + t) := by omega
      rw [e1, e2]
      exact ht4 _ (by omega)
    · refine ⟨ci1, cj1, le_refl _, le_refl _,
        by rw [seg_self, seg_self], ?_⟩
      have hfix : fixHead n ((⟨ctag, ci1, ci2, cj1, cj2⟩ : Opcode) :: rest)
          = (⟨ctag, ci1, ci2, cj1, cj2⟩ : Opcode) :: rest := by
        show (if ctag = DTag.equal then
            eqTail n ⟨ctag, ci1, ci2, cj1, cj2⟩
          else (⟨ctag, ci1, ci2, cj1, cj2⟩ : Opcode)) :: rest = _
        rw [if_neg hx]
      rw [hfix]
      exact ⟨rfl, rfl, h3, h4, htag, hrest⟩

/-- The `codes[-1]` fixup keeps the chain valid, moving the end backward
over a final agreeing slice. -/
theorem fixLast_ok {a b : List α} {n : Nat} (hn : 1 ≤ n) :
    ∀ {codes : List Opcode} {i j ei ej : Nat},
      OpsOK a b i j codes ei ej →
      ∃ q_i q_j, q_i ≤ ei ∧ q_j ≤ ej ∧ seg a q_i ei = seg b q_j ej ∧
        OpsOK a b i j (fixLast n codes) q_i q_j := by
  intro codes
  induction codes with
  | nil =>
    intro i j ei ej h
    exact ⟨ei, ej, le_refl _, le_refl _, by rw [seg_self, seg_self], h⟩
  | cons c rest ih =>
    intro i j ei ej h
    cases rest with
    | nil =>
      obtain ⟨ctag, ci1, ci2, cj1, cj2⟩ := c
      obtain ⟨h1, h2, h3, h4, htag, hrest⟩ := h
      have h1' : ci1 = i := h1
      have h2' : cj1 = j := h2
      subst h1' h2'
      obtain ⟨r1, r2⟩ := hrest
      have r1' : ci2 = ei := r1
      have r2' : cj2 = ej := r2
      subst r1' r2'
      have h3' : ci2 ≤ a.length := h3
      have h4' : cj2 ≤ b.length := h4
      by_cases hx : ctag = DTag.equal
      · subst hx
        obtain ⟨t1, t2, t3, t4⟩ := htag
        have ht1 : ci2 - ci1 = cj2 - cj1 := t1
        have ht2 : ci1 < ci2 := t2
        have ht3 : cj1 < cj2 := t3
        have ht4 : MatchAt a b ci1 cj1 (ci2 - ci1) := t4
        have hfix : fixLast n [(⟨DTag.equal, ci1, ci2, cj1, cj2⟩
              : Opcode)] =
            [(⟨DTag.equal, ci1, min ci2 (ci1 + n), cj1, min cj2 (cj1 + n)⟩
              : Opcode)] := by
          show [if DTag.equal = DTag.equal then
              eqHead n ⟨DTag.equal, ci1, ci2, cj1, cj2⟩
            else (⟨DTag.equal, ci1, ci2, cj1, cj2⟩ : Opcode)] = _
          rw [if_pos rfl]
          rfl
        have hsuf : seg a (min ci2 (ci1 + n)) ci2
            = seg b (min cj2 (cj1 + n)) cj2 := by
          have := seg_congr (a := a) (b := b) (i := min ci2 (ci1 + n))
            (j := min cj2 (cj1 + n)) (n := ci2 - min ci2 (ci1 + n)) (by
              intro t ht
              have e1 : min ci2 (ci1 + n) + t
                  = ci1 + (min ci2 (ci1 + n) - ci1 + t) := by omega
              have e2 : min cj2 (cj1 + n) + t
                  = cj1 + (min ci2 (ci1 + n) - ci1 + t) := by omega
              rw [e1, e2]
              exact ht4 _ (by omega))
          rw [show min ci2 (ci1 + n) + (ci2 - min ci2 (ci1 + n)) = ci2
                from by omega,
              show min cj2 (cj1 + n) + (ci2 - min ci2 (ci1 + n)) = cj2
                from by omega] at this
          exact this
        refine ⟨min ci2 (ci1 + n), min cj2 (cj1 + n), by omega, by omega,
          hsuf, ?_⟩
        rw [hfix]
        refine OpsOK.consI (by omega) (by omega) ?_ ⟨rfl, rfl⟩
        refine ⟨by omega, by omega, by omega, ?_⟩
        intro t ht
        exact ht4 t (by omega)
      · refine ⟨ci2, cj2, le_refl _, le_refl _,
          by rw [seg_self, seg_self], ?_⟩
        have hfix : fixLast n [(⟨ctag, ci1, ci2, cj1, cj2⟩ : Opcode)]
            = [(⟨ctag, ci1, ci2, cj1, cj2⟩ : Opcode)] := by
          show [if ctag = DTag.equal then
              eqHead n ⟨ctag, ci1, ci2, cj1, cj2⟩
            else (⟨ctag, ci1, ci2, cj1, cj2⟩ : Opcode)] = _
          rw [if_neg hx]
        rw [hfix]
        exact ⟨rfl, rfl, h3, h4, htag, rfl, rfl⟩
    | cons d rest2 =>
      obtain ⟨h1, h2, h3, h4, htag, hrest⟩ := h
      obtain ⟨q_i, q_j, g1, g2, g3, g4⟩ := ih hrest
      refine ⟨q_i, q_j, g1, g2, g3, ?_⟩
      have hfix : fixLast n (c :: d :: rest2)
          = c :: fixLast n (d :: rest2) := rfl
      rw [hfix]
      exact ⟨h1, h2, h3, h4, htag, g4⟩

set_option maxHeartbeats 1600000 in
/-- The grouped opcodes of any pair are correctly positioned from
`(0, 0)`. -/
theorem get_grouped_opcodes_ok (a b : List α) (n : Nat) (hn : 1 ≤ n) :
    GroupsOK a b 0 0 (get_grouped_opcodes a b n) := by
  by_cases hnil : get_opcodes a b = []
  · have hops0 := get_opcodes_ok a b
    rw [hnil] at hops0
    obtain ⟨e1, e2⟩ := hops0
    have hfh : fixHead n [(⟨DTag.equal, 0, 1, 0, 1⟩ : Opcode)]
        = [(⟨DTag.equal, 0, 1, 0, 1⟩ : Opcode)] := by
      show [if DTag.equal = DTag.equal then
          eqTail n ⟨DTag.equal, 0, 1, 0, 1⟩
        else (⟨DTag.equal, 0, 1, 0, 1⟩ : Opcode)] = _
      rw [if_pos rfl]
      show [(⟨DTag.equal, max 0 (1 - n), 1, max 0 (1 - n), 1⟩ : Opcode)] = _
      rw [show max 0 (1 - n) = 0 from by omega]
    have hfl : fixLast n [(⟨DTag.equal, 0, 1, 0, 1⟩ : Opcode)]
        = [(⟨DTag.equal, 0, 1, 0, 1⟩ : Opcode)] := by
      show [if DTag.equal = DTag.equal then
          eqHead n ⟨DTag.equal, 0, 1, 0, 1⟩
        else (⟨DTag.equal, 0, 1, 0, 1⟩ : Opcode)] = _
      rw [if_pos rfl]
      show [(⟨DTag.equal, 0, min 1 (0 + n), 0, min 1 (0 + n)⟩ : Opcode)] = _
      rw [show min 1 (0 + n) = 1 from by omega]
    have hgl : groupLoop n [] [(⟨DTag.equal, 0, 1, 0, 1⟩ : Opcode)]
        = [] := by
      rw [groupLoop.eq_4, if_neg (by
        intro hcontra
        have : n + n < 1 - 0 := hcontra.2
        omega)]
      show groupLoop n [(⟨DTag.equal, 0, 1, 0, 1⟩ : Opcode)] [] = []
      rw [groupLoop.eq_2, if_pos rfl]
    show GroupsOK a b 0 0
      (groupLoop n []
        (fixLast n (fixHead n
          (if get_opcodes a b = [] then [⟨DTag.equal, 0, 1, 0, 1⟩]
           else get_opcodes a b))))
    rw [if_pos hnil, hfh, hfl, hgl]
    refine ⟨by omega, by omega, ?_⟩
    rw [show a.length = 0 from e1.symm, show b.length = 0 from e2.symm,
      seg_self, seg_self]
  · have hops0 := get_opcodes_ok a b
    obtain ⟨s_i, s_j, hs1, hs2, hpre, hops1⟩ := fixHead_ok hn hops0
    obtain ⟨q_i, q_j, hq1, hq2, hsuf, hops2⟩ := fixLast_ok hn hops1
    show GroupsOK a b 0 0
      (groupLoop n []
        (fixLast n (fixHead n
          (if get_opcodes a b = [] then [⟨DTag.equal, 0, 1, 0, 1⟩]
           else get_opcodes a b))))
    rw [if_neg hnil]
    have hmain : GroupsOK a b s_i s_j
        (groupLoop n [] (fixLast n (fixHead n (get_opcodes a b)))) :=
      groupLoop_ok hn _ [] s_i s_j s_i s_j q_i q_j ⟨rfl, rfl⟩ hops2 hsuf
        hq1 hq2
    exact hmain.weaken (Nat.zero_le _) (Nat.zero_le _) hpre

/-- The grouping loop yields no group only when every opcode it sees is an
`equal`: a non-`equal` opcode somewhere guarantees a group. -/
theorem groupLoop_ne {n : Nat} :
    ∀ (codes g : List Opcode) (c : Opcode),
      c ∈ g ++ codes → ¬ c.tag = DTag.equal → groupLoop n g codes ≠ [] := by
  intro codes
  induction codes with
  | nil =>
    intro g c hc hne
    rw [List.append_nil] at hc
    match g with
    | [] => simp at hc
    | [x] =>
      rw [groupLoop.eq_2]
      have hcx : c = x := by simpa using hc
      subst hcx
      rw [if_neg hne]
      simp
    | x :: y :: g2 =>
      rw [groupLoop.eq_3 n (x :: y :: g2) (by simp) (by
        intro gg hgg
        simp at hgg)]
      simp
  | cons d rest ih =>
    intro g c hc hne
    rw [groupLoop.eq_4]
    by_cases hsplit : d.tag = DTag.equal ∧ n + n < d.i2 - d.i1
    · rw [if_pos hsplit]
      simp
    · rw [if_neg hsplit]
      refine ih (g ++ [d]) c ?_ hne
      rw [List.append_assoc]
      exact hc

/-- When the two line lists differ, the grouped opcodes are non-empty. -/
theorem get_grouped_opcodes_ne (a b : List α) (n : Nat) (hn : 1 ≤ n)
    (hab : a ≠ b) : get_grouped_opcodes a b n ≠ [] := by
  intro hempty
  by_cases hnil : get_opcodes a b = []
  · have hops0 := get_opcodes_ok a b
    rw [hnil] at hops0
    obtain ⟨e1, e2⟩ := hops0
    refine hab ?_
    have ha : a = [] := List.length_eq_zero.mp e1.symm
    have hb : b = [] := List.length_eq_zero.mp e2.symm
    rw [ha, hb]
  · have hops0 := get_opcodes_ok a b
    obtain ⟨s_i, s_j, hs1, hs2, hpre, hops1⟩ := fixHead_ok hn hops0
    obtain ⟨q_i, q_j, hq1, hq2, hsuf, hops2⟩ := fixLast_ok hn hops1
    have hempty2 : groupLoop n []
        (fixLast n (fixHead n (get_opcodes a b))) = [] := by
      have heq : get_grouped_opcodes a b n
          = groupLoop n [] (fixLast n (fixHead n (get_opcodes a b))) := by
        show groupLoop n []
          (fixLast n (fixHead n
            (if get_opcodes a b = [] then [⟨DTag.equal, 0, 1, 0, 1⟩]
             else get_opcodes a b))) = _
        rw [if_neg hnil]
      rw [← heq]
      exact hempty
    have hall : ∀ c ∈ fixLast n (fixHead n (get_opcodes a b)),
        c.tag = DTag.equal := by
      intro c hc
      by_contra hne
      exact groupLoop_ne (fixLast n (fixHead n (get_opcodes a b))) [] c
        (by simpa using hc) hne hempty2
    have hmid : seg a s_i q_i = seg b s_j q_j :=
      opsOK_all_equal_seg _ s_i s_j q_i q_j hops2 hall
    obtain ⟨m1, m2⟩ := OpsOK.ops_le hops2
    refine hab ?_
    calc a = seg a 0 a.length := (seg_zero_length a).symm
      _ = seg a 0 s_i ++ seg a s_i a.length :=
          seg_split a (Nat.zero_le _) (le_trans m1 hq1)
      _ = seg a 0 s_i ++ (seg a s_i q_i ++ seg a q_i a.length) := by
          rw [seg_split a m1 hq1]
      _ = seg b 0 s_j ++ (seg b s_j q_j ++ seg b q_j b.length) := by
          rw [hpre, hmid, hsuf]
      _ = seg b 0 s_j ++ seg b s_j b.length := by
          rw [seg_split b m2 hq2]
      _ = seg b 0 b.length :=
          (seg_split b (Nat.zero_le _) (le_trans m2 hq2)).symm
      _ = b := seg_zero_length b

/-- C3: for every pair of distinct texts, `compute_diff` renders a
non-empty unified diff, and applying its hunks as a patch to the old
text's lines and flattening reproduces the new text exactly. -/
theorem compute_diff_roundtrip (a_src b_src : List Char)
    (hab : a_src ≠ b_src) :
    compute_diff a_src b_src ≠ [] ∧
    (applyHunks (splitlinesKE a_src) 0
        (hunksOf (splitlinesKE a_src) (splitlinesKE b_src)
          (get_grouped_opcodes (splitlinesKE a_src) (splitlinesKE b_src)
            3))).flatten
      = b_src := by
  have hlines : splitlinesKE a_src ≠ splitlinesKE b_src := by
    intro h
    exact hab (splitlinesKE_injective h)
  constructor
  · have hne := get_grouped_opcodes_ne (splitlinesKE a_src)
      (splitlinesKE b_src) 3 (by omega) hlines
    rcases hgs : get_grouped_opcodes (splitlinesKE a_src)
        (splitlinesKE b_src) 3 with - | ⟨g, gs⟩
    · exact absurd hgs hne
    · unfold compute_diff
      rw [hgs]
      show ("--- \n+++ \n").toList
        ++ ((hunksOf (splitlinesKE a_src) (splitlinesKE b_src)
              (g :: gs)).map renderHunk).flatten ≠ []
      intro hcontra
      rw [List.append_eq_nil] at hcontra
      exact absurd hcontra.1 (by decide)
  · have hok := get_grouped_opcodes_ok (splitlinesKE a_src)
      (splitlinesKE b_src) 3 (by omega)
    rw [groupsOK_apply _ 0 0 hok, seg_zero_length]
    exact splitlinesKE_flatten b_src

end RoundTrip

/-! ### `crawl.write_diff`, `crawl.process_addr` and the main loop

`write_diff` computes the diff and stores nothing when it is empty;
otherwise it creates the reference's directory (`exist_ok=True`) and writes
the reference-code file `"{ref_addr}_code"` and the diff file named after
the similar address.  `process_addr` intersects the similar addresses with
the verified set, skips the reference when its own extraction fails
(`safe_extract_code` catches the `ValueError`), and skips each failing
candidate.  The network and HTML collaborators are a `CrawlWorld` oracle;
a Python `set`'s iteration order is abstracted as the oracle's list
order. -/

/-- `crawl.write_diff` (the diff is computed from the two codes; an empty
diff is not persisted). -/
def write_diff (fs : FS) (ref_addr : String) (ref_code : List Char)
    (sim_addr : String) (sim_code : List Char) (folder : String) : FS :=
  if compute_diff ref_code sim_code = [] then fs
  else
    ((fs.mkdir [folder, ref_addr]).write
        [folder, ref_addr, ref_addr ++ "_code"] ref_code).write
      [folder, ref_addr, sim_addr] (compute_diff ref_code sim_code)

/-- The collaborators of one crawl run: the HTML extractor, the per-address
attempt oracle for the address's code page, and `find_similar`'s result in
iteration order. -/
structure CrawlWorld where
  findEditor : String → Option (List Char)
  attempts : String → Nat → Except PyExc String
  similar : String → List String

/-- `process_addr`'s inner `safe_extract_code`: the `ValueError` is caught
(and logged), turning a failure into `None`. -/
def safe_extract_code (findEditor : String → Option (List Char))
    (attempts : Nat → Except PyExc String) (addr : String) :
    Option (List Char) :=
  match extract_code_fetched findEditor attempts addr with
  | .ok c => some c
  | .error _ => none

/-- `crawl.process_addr` acting on the filesystem. -/
def process_addr (w : CrawlWorld) (verified : List String)
    (ref_addr : String) (folder : String) (fs : FS) : FS :=
  match safe_extract_code w.findEditor (w.attempts ref_addr) ref_addr with
  | none => fs
  | some ref_code =>
    (((w.similar ref_addr).filter (fun a => decide (a ∈ verified))).filterMap
        (fun addr =>
          (safe_extract_code w.findEditor (w.attempts addr) addr).map
            (fun c => (addr, c)))).foldl
      (fun fs2 pc => write_diff fs2 ref_addr ref_code pc.1 pc.2 folder) fs

/-- The driving loop of `crawl.main` over the selected reference addresses
(the `parallel=False` branch; `Pool(2).starmap` applies `process_addr` to
the same list). -/
def mainLoop (w : CrawlWorld) (verified : List String)
    (addresses : List String) (folder : String) (fs : FS) : FS :=
  addresses.foldl
    (fun fs2 ref_addr => process_addr w verified ref_addr folder fs2) fs

/-! ### Helper lemmas: fetch loop, filesystem, cache, grouping of the
orchestration proofs -/

theorem fetchLoop_bound (attempts : Nat → Except PyExc String) :
    ∀ (n i : Nat), (fetchLoop attempts n i).2 ≤ i + n := by
  intro n
  induction n with
  | zero =>
    intro i
    show i ≤ i + 0
    omega
  | succ n ih =>
    intro i
    rw [fetchLoop.eq_2]
    cases hx : attempts i with
    | ok s =>
      show i + 1 ≤ i + (n + 1)
      omega
    | error e =>
      show (fetchLoop attempts n (i + 1)).2 ≤ i + (n + 1)
      have := ih (i + 1)
      omega

theorem fetchLoop_fail (attempts : Nat → Except PyExc String) :
    ∀ (n i : Nat), (∀ j, j < n → ∀ s, ¬ attempts (i + j) = Except.ok s) →
      fetchLoop attempts n i = ("", i + n) := by
  intro n
  induction n with
  | zero =>
    intro i h
    exact rfl
  | succ n ih =>
    intro i h
    rw [fetchLoop.eq_2]
    cases hx : attempts i with
    | ok s => exact absurd hx (h 0 (by omega) s)
    | error e =>
      show fetchLoop attempts n (i + 1) = ("", i + (n + 1))
      rw [ih (i + 1) (by
        intro j hj s
        rw [show i + 1 + j = i + (j + 1) from by omega]
        exact h (j + 1) (by omega) s)]
      rw [show i + 1 + n = i + (n + 1) from by omega]

theorem fetchLoop_succ (attempts : Nat → Except PyExc String) :
    ∀ (k n i : Nat) (s : String),
      (∀ j, j < k → ∀ s2, ¬ attempts (i + j) = Except.ok s2) →
      attempts (i + k) = Except.ok s → k < n →
      fetchLoop attempts n i = (s, i + k + 1) := by
  intro k
  induction k with
  | zero =>
    intro n i s hfail hok hn
    cases n with
    | zero => omega
    | succ m =>
      rw [fetchLoop.eq_2]
      have hok2 : attempts i = Except.ok s := hok
      rw [hok2]
  | succ k ih =>
    intro n i s hfail hok hn
    cases n with
    | zero => omega
    | succ m =>
      rw [fetchLoop.eq_2]
      cases hx : attempts i with
      | ok s2 => exact absurd hx (hfail 0 (by omega) s2)
      | error e =>
        show fetchLoop attempts m (i + 1) = (s, i + (k + 1) + 1)
        rw [ih m (i + 1) s (by
            intro j hj s2
            rw [show i + 1 + j = i + (j + 1) from by omega]
            exact hfail (j + 1) (by omega) s2)
          (by
            rw [show i + 1 + k = i + (k + 1) from by omega]
            exact hok)
          (by omega)]
        rw [show i + 1 + k + 1 = i + (k + 1) + 1 from by omega]

/-- A cache hit: the stored value passes the check, so it is returned, the
function is not run, the hook fires, and nothing is written. -/
theorem pickle_cache_witness_hit {V : Type} (fval : V) (check : V → Bool)
    (hasHook : Bool) (v : V) (h : check v = true) :
    pickle_cache_witness true fval check hasHook (some v)
      = ⟨v, some v, 0, if hasHook then 1 else 0, false⟩ := by
  show (if check v then
      (⟨v, some v, 0, if hasHook then 1 else 0, false⟩ : CacheCall V)
    else ⟨fval, some fval, 1, 0, true⟩) = _
  rw [if_pos h]

/-- A stale store: the stored value fails the check, so the function is
re-run and the store overwritten. -/
theorem pickle_cache_witness_stale {V : Type} (fval : V) (check : V → Bool)
    (hasHook : Bool) (v : V) (h : check v = false) :
    pickle_cache_witness true fval check hasHook (some v)
      = ⟨fval, some fval, 1, 0, true⟩ := by
  show (if check v then
      (⟨v, some v, 0, if hasHook then 1 else 0, false⟩ : CacheCall V)
    else ⟨fval, some fval, 1, 0, true⟩) = _
  rw [if_neg (by simp [h])]

theorem FS.mkdir_files (fs : FS) (p : FPath) :
    (fs.mkdir p).files = fs.files := by
  unfold FS.mkdir
  by_cases h : p ∈ fs.dirs
  · rw [if_pos h]
  · rw [if_neg h]

theorem FS.mkdir_of_mem (fs : FS) (p : FPath) (h : p ∈ fs.dirs) :
    fs.mkdir p = fs := by
  unfold FS.mkdir
  rw [if_pos h]

theorem FS.mem_mkdir_dirs (fs : FS) (p : FPath) : p ∈ (fs.mkdir p).dirs := by
  unfold FS.mkdir
  by_cases h : p ∈ fs.dirs
  · rw [if_pos h]
    exact h
  · rw [if_neg h]
    exact List.mem_cons_self _ _

theorem FS.read?_write (fs : FS) (p q : FPath) (c : List Char) :
    (fs.write p c).read? q = if q = p then some c else fs.read? q :=
  lookupAssoc_updAssoc fs.files p q c

/-- Re-writing a key with the value it already holds changes nothing. -/
theorem updAssoc_lookup_eq (f : List (FPath × List Char)) (p : FPath)
    (c : List Char) (h : lookupAssoc f p = some c) : updAssoc f p c = f := by
  induction f with
  | nil => simp [lookupAssoc] at h
  | cons hd tl ih =>
    obtain ⟨q, d⟩ := hd
    by_cases hq : q = p
    · subst hq
      have h2 : d = c := by simpa [lookupAssoc] using h
      subst h2
      simp [updAssoc]
    · simp only [lookupAssoc, if_neg hq] at h
      simp [updAssoc, hq, ih h]

theorem lookupStr_updStr (files : List (String × String)) (p q c : String) :
    lookupStr (updStr files p c) q =
      if q = p then some c else lookupStr files q := by
  induction files with
  | nil =>
    by_cases h : q = p
    · subst h; simp [updStr, lookupStr]
    · simp only [updStr, lookupStr, if_neg h,
        if_neg (fun h2 => h (Eq.symm h2))]
  | cons hd tl ih =>
    obtain ⟨r, d⟩ := hd
    by_cases hrp : r = p
    · subst hrp
      simp only [updStr, if_pos rfl, lookupStr]
      by_cases hq : q = r
      · subst hq; simp
      · rw [if_neg (fun h2 => hq (Eq.symm h2)), if_neg hq,
          if_neg (fun h2 => hq (Eq.symm h2))]
    · simp only [updStr, if_neg hrp, lookupStr]
      by_cases hq : q = p
      · subst hq
        rw [if_neg (fun h2 => hrp h2), ih, if_pos rfl, if_pos rfl]
      · rw [ih, if_neg hq, if_neg hq]

/-- Every directory `write_diff` leaves behind is the reference's own
directory or was already there. -/
theorem write_diff_dirs (fs : FS) (r : String) (rc : List Char) (s : String)
    (sc : List Char) (folder : String) :
    ∀ d ∈ (write_diff fs r rc s sc folder).dirs,
      d = [folder, r] ∨ d ∈ fs.dirs := by
  intro d hd
  unfold write_diff at hd
  by_cases hdiff : compute_diff rc sc = []
  · rw [if_pos hdiff] at hd
    exact Or.inr hd
  · rw [if_neg hdiff] at hd
    have hd2 : d ∈ (fs.mkdir [folder, r]).dirs := hd
    unfold FS.mkdir at hd2
    by_cases hm : [folder, r] ∈ fs.dirs
    · rw [if_pos hm] at hd2
      exact Or.inr hd2
    · rw [if_neg hm] at hd2
      rcases List.mem_cons.mp hd2 with h | h
      · exact Or.inl h
      · exact Or.inr h

theorem foldl_write_diff_dirs (ref_addr folder : String)
    (ref_code : List Char) :
    ∀ (l : List (String × List Char)) (fs : FS),
      ∀ d ∈ (l.foldl
          (fun fs2 pc => write_diff fs2 ref_addr ref_code pc.1 pc.2 folder)
          fs).dirs,
        d = [folder, ref_addr] ∨ d ∈ fs.dirs := by
  intro l
  induction l with
  | nil =>
    intro fs d hd
    exact Or.inr hd
  | cons pc rest ih =>
    intro fs d hd
    simp only [List.foldl_cons] at hd
    rcases ih _ d hd with h | h
    · exact Or.inl h
    · exact write_diff_dirs fs ref_addr ref_code pc.1 pc.2 folder d h

/-- `process_addr` creates no directory but the reference's own. -/
theorem process_addr_dirs (w : CrawlWorld) (verified : List String)
    (ref_addr folder : String) (fs : FS) :
    ∀ d ∈ (process_addr w verified ref_addr folder fs).dirs,
      d = [folder, ref_addr] ∨ d ∈ fs.dirs := by
  unfold process_addr
  cases hx : safe_extract_code w.findEditor (w.attempts ref_addr) ref_addr with
  | none =>
    intro d hd
    exact Or.inr hd
  | some ref_code =>
    intro d hd
    exact foldl_write_diff_dirs ref_addr folder ref_code _ fs d hd

/-- A reference whose extraction fails contributes nothing. -/
theorem process_addr_failed (w : CrawlWorld) (verified : List String)
    (ref_addr folder : String) (fs : FS)
    (h : safe_extract_code w.findEditor (w.attempts ref_addr) ref_addr
      = none) :
    process_addr w verified ref_addr folder fs = fs := by
  unfold process_addr
  rw [h]

theorem mainLoop_append (w : CrawlWorld) (verified : List String)
    (folder : String) (l1 l2 : List String) (fs : FS) :
    mainLoop w verified (l1 ++ l2) folder fs
      = mainLoop w verified l2 folder (mainLoop w verified l1 folder fs) := by
  unfold mainLoop
  rw [List.foldl_append]

/-- Every directory the main loop leaves behind belongs to a processed
reference or was already there. -/
theorem mainLoop_dirs (w : CrawlWorld) (verified : List String)
    (folder : String) :
    ∀ (addrs : List String) (fs : FS),
      ∀ d ∈ (mainLoop w verified addrs folder fs).dirs,
        (∃ r ∈ addrs, d = [folder, r]) ∨ d ∈ fs.dirs := by
  intro addrs
  induction addrs with
  | nil =>
    intro fs d hd
    exact Or.inr hd
  | cons r rest ih =>
    intro fs d hd
    rcases ih (process_addr w verified r folder fs) d hd with ⟨r2, hr2, he⟩ | h
    · exact Or.inl ⟨r2, List.mem_cons_of_mem _ hr2, he⟩
    · rcases process_addr_dirs w verified r folder fs d h with h2 | h2
      · exact Or.inl ⟨r, List.mem_cons_self _ _, h2⟩
      · exact Or.inr h2

/-- Appending the same suffix to equal strings is cancellative. -/
theorem string_append_cancel {m n s : String} (h : m ++ s = n ++ s) :
    m = n := by
  cases m with
  | mk md =>
    cases n with
    | mk nd =>
      cases s with
      | mk sd =>
        have hd : md ++ sd = nd ++ sd := congrArg String.data h
        exact congrArg String.mk (List.append_cancel_right hd)

/-- The fetch log accumulated by `fetch_addresses_verified`'s fold. -/
theorem fav_log_aux (o : DiscoveryOracle) :
    ∀ (l : List Nat) (s : Finset String) (acc : List Url),
      (l.foldl
        (fun a i => (a.1 ∪ o.tags (Url.page i), a.2 ++ [Url.page i]))
        (s, acc)).2 = acc ++ l.map Url.page := by
  intro l
  induction l with
  | nil =>
    intro s acc
    simp
  | cons i rest ih =>
    intro s acc
    show (rest.foldl _ (s ∪ o.tags (Url.page i), acc ++ [Url.page i])).2 = _
    rw [ih]
    simp

/-- The copy loop's invariant: starting from a state that has overwritten
nothing and whose keys are exactly the processed names plus `m ++ "_0"` for
each name `m` processed twice, the loop overwrites nothing — provided no
name occurs more than twice overall and no name is another name with
`"_0"` appended. -/
theorem copy_diffs_invariant (names_all : List String)
    (h2 : ∀ m ∈ names_all, names_all.count m ≤ 2)
    (h3 : ∀ m1 ∈ names_all, ∀ m2 ∈ names_all, ¬ m1 = m2 ++ "_0") :
    ∀ (sel : List (String × String)) (processed : List String)
      (st : CopyState),
      processed ++ sel.map (fun pc => basename pc.1) = names_all →
      st.overwrote = false →
      (∀ k, (lookupStr st.files k).isSome = true ↔
        (k ∈ processed ∨ ∃ m, processed.count m = 2 ∧ k = m ++ "_0")) →
      (copy_diffs sel st).overwrote = false := by
  intro sel
  induction sel with
  | nil =>
    intro processed st hpre hov hkeys
    exact hov
  | cons pc rest ih =>
    intro processed st hpre hov hkeys
    have hmem_n : basename pc.1 ∈ names_all := by
      rw [← hpre]
      exact List.mem_append_right _ (by simp)
    have hsub : ∀ m ∈ processed, m ∈ names_all := by
      intro m hm
      rw [← hpre]
      exact List.mem_append_left _ hm
    show (copy_diffs rest (copyStep st pc)).overwrote = false
    by_cases hlook : lookupStr st.files (basename pc.1) = none
    · -- first occurrence in the destination: copy under the basename
      have hstep : copyStep st pc
          = ⟨updStr st.files (basename pc.1) pc.2,
             st.overwrote
               || (lookupStr st.files (basename pc.1) ≠ none)⟩ := by
        unfold copyStep
        rw [if_neg (by
          intro hcontra
          exact hcontra hlook)]
      have hnotp : basename pc.1 ∉ processed := by
        intro hmem
        have := (hkeys (basename pc.1)).mpr (Or.inl hmem)
        rw [hlook] at this
        simp at this
      rw [hstep]
      refine ih (processed ++ [basename pc.1])
        ⟨updStr st.files (basename pc.1) pc.2,
         st.overwrote || (lookupStr st.files (basename pc.1) ≠ none)⟩
        (by
          rw [List.append_assoc]
          exact hpre)
        (by
          show (st.overwrote
            || decide (¬ lookupStr st.files (basename pc.1) = none)) = false
          rw [hov, hlook]
          simp)
        ?_
      intro k
      show (lookupStr (updStr st.files (basename pc.1) pc.2) k).isSome
          = true ↔ _
      rw [lookupStr_updStr]
      by_cases hk : k = basename pc.1
      · subst hk
        rw [if_pos rfl]
        simp only [Option.isSome_some, true_iff]
        exact Or.inl (List.mem_append_right _ (by simp))
      · rw [if_neg hk]
        rw [hkeys k]
        constructor
        · intro hc
          rcases hc with hc | ⟨m, hm, he⟩
          · exact Or.inl (List.mem_append_left _ hc)
          · refine Or.inr ⟨m, ?_, he⟩
            rw [List.count_append]
            have : ¬ m = basename pc.1 := by
              intro hcontra
              subst hcontra
              exact hnotp (List.count_pos_iff.mp (by omega))
            simp [List.count_cons, this]
            omega
        · intro hc
          rcases hc with hc | ⟨m, hm, he⟩
          · rcases List.mem_append.mp hc with hc2 | hc2
            · exact Or.inl hc2
            · exact absurd (by simpa using hc2) hk
          · refine Or.inr ⟨m, ?_, he⟩
            rw [List.count_append] at hm
            by_cases hmn : m = basename pc.1
            · subst hmn
              have : processed.count (basename pc.1) = 0 :=
                List.count_eq_zero.mpr hnotp
              simp [List.count_cons] at hm
              omega
            · simp [List.count_cons, hmn] at hm
              omega
    · -- the basename already exists: copy under basename ++ "_0"
      have hinp : basename pc.1 ∈ processed := by
        have hsome : (lookupStr st.files (basename pc.1)).isSome = true := by
          cases hc : lookupStr st.files (basename pc.1) with
          | none => exact absurd hc hlook
          | some v => simp
        rcases (hkeys _).mp hsome with h | ⟨m, hm, he⟩
        · exact h
        · exact absurd he
            (h3 (basename pc.1) hmem_n m
              (hsub m (List.count_pos_iff.mp (by omega))))
      have hcount1 : processed.count (basename pc.1) = 1 := by
        have hall : names_all.count (basename pc.1) ≤ 2 :=
          h2 (basename pc.1) hmem_n
        rw [← hpre, List.count_append] at hall
        have hmap : ((pc :: rest).map (fun pc2 => basename pc2.1)).count
            (basename pc.1) ≥ 1 := by
          simp [List.count_cons]
        have hpos : 0 < processed.count (basename pc.1) :=
          List.count_pos_iff.mpr hinp
        omega
      have hlook0 : lookupStr st.files (basename pc.1 ++ "_0") = none := by
        cases hc : lookupStr st.files (basename pc.1 ++ "_0") with
        | none => rfl
        | some v =>
          have hsome : (lookupStr st.files
              (basename pc.1 ++ "_0")).isSome = true := by
            rw [hc]
            simp
          rcases (hkeys _).mp hsome with h | ⟨m, hm, he⟩
          · exact absurd rfl
              (h3 (basename pc.1 ++ "_0") (hsub _ h) (basename pc.1) hmem_n)
          · have : m = basename pc.1 := string_append_cancel he.symm
            subst this
            omega
      have hstep : copyStep st pc
          = ⟨updStr st.files (basename pc.1 ++ "_0") pc.2,
             st.overwrote
               || (lookupStr st.files (basename pc.1 ++ "_0") ≠ none)⟩ := by
        unfold copyStep
        rw [if_pos hlook]
      rw [hstep]
      refine ih (processed ++ [basename pc.1])
        ⟨updStr st.files (basename pc.1 ++ "_0") pc.2,
         st.overwrote
           || (lookupStr st.files (basename pc.1 ++ "_0") ≠ none)⟩
        (by
          rw [List.append_assoc]
          exact hpre)
        (by
          show (st.overwrote
            || decide (¬ lookupStr st.files (basename pc.1 ++ "_0")
                = none)) = false
          rw [hov, hlook0]
          simp)
        ?_
      intro k
      show (lookupStr (updStr st.files (basename pc.1 ++ "_0") pc.2)
          k).isSome = true ↔ _
      rw [lookupStr_updStr]
      by_cases hk : k = basename pc.1 ++ "_0"
      · subst hk
        rw [if_pos rfl]
        simp only [Option.isSome_some, true_iff]
        refine Or.inr ⟨basename pc.1, ?_, rfl⟩
        rw [List.count_append]
        simp [List.count_cons]
        omega
      · rw [if_neg hk]
        rw [hkeys k]
        constructor
        · intro hc
          rcases hc with hc | ⟨m, hm, he⟩
          · exact Or.inl (List.mem_append_left _ hc)
          · refine Or.inr ⟨m, ?_, he⟩
            rw [List.count_append]
            have : ¬ m = basename pc.1 := by
              intro hcontra
              subst hcontra
              omega
            simp [List.count_cons, this]
            omega
        · intro hc
          rcases hc with hc | ⟨m, hm, he⟩
          · rcases List.mem_append.mp hc with hc2 | hc2
            · exact Or.inl hc2
            · have : k = basename pc.1 := by simpa using hc2
              subst this
              exact Or.inl hinp
          · by_cases hmn : m = basename pc.1
            · subst hmn
              exact absurd he hk
            · refine Or.inr ⟨m, ?_, he⟩
              rw [List.count_append] at hm
              simp [List.count_cons, hmn] at hm
              omega

/-! ### The claims -/

/-- C1: for a fixed key, two successive calls of the memoizing cache run
the underlying function exactly once — the second call loads the stored
value and returns it; when a loaded value fails the validity check, the
call re-runs the function and overwrites the store. -/
theorem claim_C1_cache_invokes_once {V : Type} (fval : V) (check : V → Bool)
    (hasHook : Bool) (hvalid : check fval = true) :
    ((pickle_cache_witness true fval check hasHook none).fCalls = 1 ∧
     (pickle_cache_witness true fval check hasHook
        (pickle_cache_witness true fval check hasHook none).store).fCalls
       = 0 ∧
     (pickle_cache_witness true fval check hasHook
        (pickle_cache_witness true fval check hasHook none).store).result
       = fval) ∧
    (∀ v, check v = false →
      (pickle_cache_witness true fval check hasHook (some v)).fCalls = 1 ∧
      (pickle_cache_witness true fval check hasHook (some v)).store
        = some fval ∧
      (pickle_cache_witness true fval check hasHook (some v)).wrote
        = true) ∧
    ((cache_func_and_arg fval (none : Option V)).2.2 = 1 ∧
     (cache_func_and_arg fval
        (cache_func_and_arg fval (none : Option V)).2.1).2.2 = 0 ∧
     (cache_func_and_arg fval
        (cache_func_and_arg fval (none : Option V)).2.1).1 = fval) := by
  have hs : (pickle_cache_witness true fval check hasHook none).store
      = some fval := rfl
  refine ⟨⟨rfl, ?_, ?_⟩, ?_, rfl, rfl, rfl⟩
  · rw [hs, pickle_cache_witness_hit fval check hasHook fval hvalid]
  · rw [hs, pickle_cache_witness_hit fval check hasHook fval hvalid]
  · intro v hv
    rw [pickle_cache_witness_stale fval check hasHook v hv]
    exact ⟨rfl, rfl, rfl⟩

def checkC1 : Nat → Bool := fun _ => true

theorem claim_C1_witness :
    checkC1 7 = true ∧
    (((pickle_cache_witness true 7 checkC1 true none).fCalls = 1 ∧
      (pickle_cache_witness true 7 checkC1 true
         (pickle_cache_witness true 7 checkC1 true none).store).fCalls
        = 0 ∧
      (pickle_cache_witness true 7 checkC1 true
         (pickle_cache_witness true 7 checkC1 true none).store).result
        = 7) ∧
     (∀ v, checkC1 v = false →
       (pickle_cache_witness true 7 checkC1 true (some v)).fCalls = 1 ∧
       (pickle_cache_witness true 7 checkC1 true (some v)).store
         = some 7 ∧
       (pickle_cache_witness true 7 checkC1 true (some v)).wrote
         = true) ∧
     ((cache_func_and_arg 7 (none : Option Nat)).2.2 = 1 ∧
      (cache_func_and_arg 7
         (cache_func_and_arg 7 (none : Option Nat)).2.1).2.2 = 0 ∧
      (cache_func_and_arg 7
         (cache_func_and_arg 7 (none : Option Nat)).2.1).1 = 7)) :=
  ⟨rfl, claim_C1_cache_invokes_once 7 checkC1 true rfl⟩

/-- C2: the diff of a text with itself is the empty string, and the caller
`write_diff` treats an empty diff as "do not persist": the filesystem is
returned unchanged. -/
theorem claim_C2_self_diff_empty (t : List Char) (fs : FS)
    (ref sim folder : String) :
    compute_diff t t = [] ∧ write_diff fs ref t sim t folder = fs := by
  refine ⟨compute_diff_self t, ?_⟩
  unfold write_diff
  rw [if_pos (compute_diff_self t)]

theorem compute_diff_roundtrip_witness :
    ("x\n".toList ≠ "y\n".toList) ∧
    (compute_diff "x\n".toList "y\n".toList ≠ [] ∧
     (applyHunks (splitlinesKE "x\n".toList) 0
        (hunksOf (splitlinesKE "x\n".toList) (splitlinesKE "y\n".toList)
          (get_grouped_opcodes (splitlinesKE "x\n".toList)
            (splitlinesKE "y\n".toList) 3))).flatten
       = "y\n".toList) :=
  ⟨by decide, compute_diff_roundtrip "x\n".toList "y\n".toList (by decide)⟩

/-- C4: `fetch` with the default limit makes at most 5 attempts; if the
first success is attempt `k` within the limit, its text is returned
immediately after `k + 1` attempts; if every attempt fails the exceptions
are all caught and the empty-string sentinel is returned. -/
theorem claim_C4_fetch_retry (attempts : Nat → Except PyExc String) :
    (fetch attempts 5).2 ≤ 5 ∧
    (∀ k s, k < 5 → (∀ j, j < k → ∀ s2, ¬ attempts j = Except.ok s2) →
      attempts k = Except.ok s → fetch attempts 5 = (s, k + 1)) ∧
    ((∀ j, j < 5 → ∀ s, ¬ attempts j = Except.ok s) →
      fetch attempts 5 = ("", 5)) := by
  refine ⟨?_, ?_, ?_⟩
  · have h := fetchLoop_bound attempts 5 0
    show (fetchLoop attempts 5 0).2 ≤ 5
    omega
  · intro k s hk hfail hok
    have h := fetchLoop_succ attempts k 5 0 s (by
        intro j hj s2
        rw [Nat.zero_add]
        exact hfail j hj s2)
      (by
        rw [Nat.zero_add]
        exact hok)
      hk
    rw [Nat.zero_add] at h
    exact h
  · intro hfail
    have h := fetchLoop_fail attempts 5 0 (by
      intro j hj s
      rw [Nat.zero_add]
      exact hfail j hj s)
    exact h

/-- C5: a failing reference extraction is contained: the run over the whole
batch equals the run over the remaining sibling references (everything
before and after the failing one is processed, nothing aborts), and the
failed reference gets no output directory. -/
theorem claim_C5_failure_containment (w : CrawlWorld)
    (verified : List String) (pre post : List String) (bad folder : String)
    (fs : FS)
    (hbad : safe_extract_code w.findEditor (w.attempts bad) bad = none)
    (hb1 : ¬ bad ∈ pre) (hb2 : ¬ bad ∈ post)
    (hb3 : ¬ [folder, bad] ∈ fs.dirs) :
    mainLoop w verified (pre ++ bad :: post) folder fs
      = mainLoop w verified post folder (mainLoop w verified pre folder fs)
    ∧ ¬ [folder, bad] ∈
        (mainLoop w verified (pre ++ bad :: post) folder fs).dirs := by
  have hskip : ∀ fs2, mainLoop w verified (bad :: post) folder fs2
      = mainLoop w verified post folder fs2 := by
    intro fs2
    show mainLoop w verified post folder
      (process_addr w verified bad folder fs2) = _
    rw [process_addr_failed w verified bad folder fs2 hbad]
  have heq : mainLoop w verified (pre ++ bad :: post) folder fs
      = mainLoop w verified post folder
          (mainLoop w verified pre folder fs) := by
    rw [mainLoop_append, hskip]
  refine ⟨heq, ?_⟩
  rw [heq]
  intro hmem
  rcases mainLoop_dirs w verified folder post _ _ hmem with ⟨r, hr, he⟩ | h
  · have hbr : bad = r := by simpa using he
    subst hbr
    exact hb2 hr
  · rcases mainLoop_dirs w verified folder pre _ _ h with ⟨r, hr, he⟩ | h2
    · have hbr : bad = r := by simpa using he
      subst hbr
      exact hb1 hr
    · exact hb3 h2

def wC5 : CrawlWorld :=
  ⟨fun content => if content = "0xB" then none else some content.toList,
   fun addr => fun _ => Except.ok addr,
   fun _ => []⟩

theorem claim_C5_witness :
    safe_extract_code wC5.findEditor (wC5.attempts "0xB") "0xB" = none ∧
    (¬ "0xB" ∈ (["0xA"] : List String)) ∧
    (¬ "0xB" ∈ (["0xC"] : List String)) ∧
    (¬ (["diffs", "0xB"] : FPath) ∈ (⟨[], []⟩ : FS).dirs) ∧
    (mainLoop wC5 ["0xA", "0xB", "0xC", "0xD"] (["0xA"] ++ "0xB" :: ["0xC"])
        "diffs" ⟨[], []⟩
      = mainLoop wC5 ["0xA", "0xB", "0xC", "0xD"] ["0xC"] "diffs"
          (mainLoop wC5 ["0xA", "0xB", "0xC", "0xD"] ["0xA"] "diffs"
            ⟨[], []⟩)
     ∧ ¬ (["diffs", "0xB"] : FPath) ∈
        (mainLoop wC5 ["0xA", "0xB", "0xC", "0xD"]
          (["0xA"] ++ "0xB" :: ["0xC"]) "diffs" ⟨[], []⟩).dirs) :=
  ⟨by decide, by decide, by decide, by decide,
   claim_C5_failure_containment wC5 ["0xA", "0xB", "0xC", "0xD"] ["0xA"]
     ["0xC"] "0xB" "diffs" ⟨[], []⟩ (by decide) (by decide) (by decide)
     (by decide)⟩

/-- C6: discovery fetches the index page exactly once for the page count,
then each page `0 ≤ i < total` exactly once and in order, unioning the
extracted identifier tags; with `total = 3` pairwise-disjoint pages of `k`
identifiers each, the result has `3 * k` identifiers and exactly 4 fetches
are issued. -/
theorem claim_C6_discovery (o : DiscoveryOracle) (k : Nat)
    (htotal : o.totalPage = 3)
    (hcard : ∀ i, i < 3 → (o.tags (Url.page i)).card = k)
    (hdisj : ∀ i, i < 3 → ∀ j, j < 3 → ¬ i = j →
      o.tags (Url.page i) ∩ o.tags (Url.page j) = ∅) :
    (fetch_addresses_verified o).2
        = Url.index :: (List.range o.totalPage).map Url.page
    ∧ (fetch_addresses_verified o).2
        = [Url.index, Url.page 0, Url.page 1, Url.page 2]
    ∧ (fetch_addresses_verified o).2.length = 4
    ∧ (fetch_addresses_verified o).1.card = 3 * k := by
  have hlog : (fetch_addresses_verified o).2
      = Url.index :: (List.range o.totalPage).map Url.page := by
    show ((List.range (nb_verified o).1.2).foldl
      (fun acc i => (acc.1 ∪ o.tags (Url.page i), acc.2 ++ [Url.page i]))
      (∅, (nb_verified o).2)).2 = _
    rw [fav_log_aux o (List.range (nb_verified o).1.2) ∅ (nb_verified o).2]
    rfl
  have hset : (fetch_addresses_verified o).1
      = ((∅ ∪ o.tags (Url.page 0)) ∪ o.tags (Url.page 1))
          ∪ o.tags (Url.page 2) := by
    show ((List.range (nb_verified o).1.2).foldl
      (fun acc i => (acc.1 ∪ o.tags (Url.page i), acc.2 ++ [Url.page i]))
      (∅, (nb_verified o).2)).1 = _
    rw [show (nb_verified o).1.2 = 3 from htotal]
    rfl
  have d01 := hdisj 0 (by omega) 1 (by omega) (by omega)
  have d02 := hdisj 0 (by omega) 2 (by omega) (by omega)
  have d12 := hdisj 1 (by omega) 2 (by omega) (by omega)
  have dd : (o.tags (Url.page 0) ∪ o.tags (Url.page 1))
      ∩ o.tags (Url.page 2) = ∅ := by
    rw [Finset.union_inter_distrib_right, d02, d12, Finset.empty_union]
  have hcards : (fetch_addresses_verified o).1.card = 3 * k := by
    rw [hset, Finset.empty_union,
      Finset.card_union_of_disjoint
        (Finset.disjoint_iff_inter_eq_empty.mpr dd),
      Finset.card_union_of_disjoint
        (Finset.disjoint_iff_inter_eq_empty.mpr d01),
      hcard 0 (by omega), hcard 1 (by omega), hcard 2 (by omega)]
    omega
  refine ⟨hlog, ?_, ?_, hcards⟩
  · rw [hlog, htotal]
    rfl
  · rw [hlog, htotal]
    rfl

def oC6 : DiscoveryOracle :=
  ⟨1, 3, fun u =>
    match u with
    | Url.page 0 => {"0xa"}
    | Url.page 1 => {"0xb"}
    | Url.page 2 => {"0xc"}
    | _ => ∅⟩

theorem claim_C6_witness :
    oC6.totalPage = 3 ∧
    (∀ i, i < 3 → (oC6.tags (Url.page i)).card = 1) ∧
    (∀ i, i < 3 → ∀ j, j < 3 → ¬ i = j →
      oC6.tags (Url.page i) ∩ oC6.tags (Url.page j) = ∅) ∧
    ((fetch_addresses_verified oC6).2
        = Url.index :: (List.range oC6.totalPage).map Url.page
     ∧ (fetch_addresses_verified oC6).2
        = [Url.index, Url.page 0, Url.page 1, Url.page 2]
     ∧ (fetch_addresses_verified oC6).2.length = 4
     ∧ (fetch_addresses_verified oC6).1.card = 3 * 1) :=
  ⟨rfl, by decide, by decide,
   claim_C6_discovery oC6 1 rfl (by decide) (by decide)⟩

/-- C7: writing a record whose diff is empty stores nothing (no file, no
directory); writing the same (reference, candidate) record with a
non-empty diff twice is idempotent and leaves, from an empty start,
exactly the reference-code file `ref ++ "_code"` and the diff file named
after the candidate, with the latest contents. -/
theorem claim_C7_diff_store (fs : FS) (ref sim folder : String)
    (rc sc : List Char) (hne : ¬ sim = ref ++ "_code") :
    (compute_diff rc sc = [] → write_diff fs ref rc sim sc folder = fs) ∧
    (¬ compute_diff rc sc = [] →
      write_diff (write_diff fs ref rc sim sc folder) ref rc sim sc folder
          = write_diff fs ref rc sim sc folder
      ∧ (write_diff fs ref rc sim sc folder).read?
          [folder, ref, ref ++ "_code"] = some rc
      ∧ (write_diff fs ref rc sim sc folder).read? [folder, ref, sim]
          = some (compute_diff rc sc)
      ∧ (fs.files = [] →
          (write_diff fs ref rc sim sc folder).files
            = [([folder, ref, ref ++ "_code"], rc),
               ([folder, ref, sim], compute_diff rc sc)])
      ∧ (fs.dirs = [] →
          (write_diff fs ref rc sim sc folder).dirs = [[folder, ref]])) := by
  have hp12 : ¬ ([folder, ref, ref ++ "_code"] : FPath)
      = [folder, ref, sim] := by
    intro h
    apply hne
    have h2 : ref ++ "_code" = sim := by simpa using h
    exact h2.symm
  constructor
  · intro hd
    unfold write_diff
    rw [if_pos hd]
  · intro hd
    have hw : write_diff fs ref rc sim sc folder
        = ((fs.mkdir [folder, ref]).write
            [folder, ref, ref ++ "_code"] rc).write
          [folder, ref, sim] (compute_diff rc sc) := by
      unfold write_diff
      rw [if_neg hd]
    have hread1 : (write_diff fs ref rc sim sc folder).read?
        [folder, ref, ref ++ "_code"] = some rc := by
      rw [hw, FS.read?_write, if_neg hp12, FS.read?_write, if_pos rfl]
    have hread2 : (write_diff fs ref rc sim sc folder).read?
        [folder, ref, sim] = some (compute_diff rc sc) := by
      rw [hw, FS.read?_write, if_pos rfl]
    refine ⟨?_, hread1, hread2, ?_, ?_⟩
    · have hdirmem : [folder, ref]
          ∈ (((fs.mkdir [folder, ref]).write
              [folder, ref, ref ++ "_code"] rc).write
            [folder, ref, sim] (compute_diff rc sc)).dirs :=
        FS.mem_mkdir_dirs fs [folder, ref]
      have hl1 : lookupAssoc
          (updAssoc (updAssoc (fs.mkdir [folder, ref]).files
            [folder, ref, ref ++ "_code"] rc) [folder, ref, sim]
            (compute_diff rc sc)) [folder, ref, ref ++ "_code"]
          = some rc := by
        rw [lookupAssoc_updAssoc, if_neg hp12, lookupAssoc_updAssoc,
          if_pos rfl]
      have hl2 : lookupAssoc
          (updAssoc (updAssoc (fs.mkdir [folder, ref]).files
            [folder, ref, ref ++ "_code"] rc) [folder, ref, sim]
            (compute_diff rc sc)) [folder, ref, sim]
          = some (compute_diff rc sc) := by
        rw [lookupAssoc_updAssoc, if_pos rfl]
      rw [hw]
      unfold write_diff
      rw [if_neg hd]
      have hmk : (((fs.mkdir [folder, ref]).write
            [folder, ref, ref ++ "_code"] rc).write
          [folder, ref, sim] (compute_diff rc sc)).mkdir [folder, ref]
          = ((fs.mkdir [folder, ref]).write
              [folder, ref, ref ++ "_code"] rc).write
            [folder, ref, sim] (compute_diff rc sc) :=
        FS.mkdir_of_mem _ _ hdirmem
      rw [hmk]
      show FS.mk ((fs.mkdir [folder, ref]).dirs)
          (updAssoc (updAssoc
            (updAssoc (updAssoc (fs.mkdir [folder, ref]).files
              [folder, ref, ref ++ "_code"] rc) [folder, ref, sim]
              (compute_diff rc sc))
            [folder, ref, ref ++ "_code"] rc) [folder, ref, sim]
            (compute_diff rc sc))
        = FS.mk ((fs.mkdir [folder, ref]).dirs)
            (updAssoc (updAssoc (fs.mkdir [folder, ref]).files
              [folder, ref, ref ++ "_code"] rc) [folder, ref, sim]
              (compute_diff rc sc))
      rw [updAssoc_lookup_eq _ _ _ hl1, updAssoc_lookup_eq _ _ _ hl2]
    · intro hf0
      rw [hw]
      show updAssoc (updAssoc (fs.mkdir [folder, ref]).files
          [folder, ref, ref ++ "_code"] rc) [folder, ref, sim]
          (compute_diff rc sc) = _
      rw [FS.mkdir_files, hf0]
      show updAssoc [([folder, ref, ref ++ "_code"], rc)] [folder, ref, sim]
          (compute_diff rc sc) = _
      simp [updAssoc, hp12]
    · intro hd0
      rw [hw]
      show (fs.mkdir [folder, ref]).dirs = _
      unfold FS.mkdir
      rw [hd0]
      rw [if_neg (by simp)]

theorem claim_C7_witness :
    (¬ "0xB" = "0xA" ++ "_code") ∧
    ((compute_diff "x\n".toList "y\n".toList = [] →
        write_diff ⟨[], []⟩ "0xA" "x\n".toList "0xB" "y\n".toList "diffs"
          = (⟨[], []⟩ : FS)) ∧
     (¬ compute_diff "x\n".toList "y\n".toList = [] →
       write_diff
           (write_diff ⟨[], []⟩ "0xA" "x\n".toList "0xB" "y\n".toList
             "diffs")
           "0xA" "x\n".toList "0xB" "y\n".toList "diffs"
           = write_diff ⟨[], []⟩ "0xA" "x\n".toList "0xB" "y\n".toList
               "diffs"
       ∧ (write_diff ⟨[], []⟩ "0xA" "x\n".toList "0xB" "y\n".toList
           "diffs").read? ["diffs", "0xA", "0xA" ++ "_code"]
           = some "x\n".toList
       ∧ (write_diff ⟨[], []⟩ "0xA" "x\n".toList "0xB" "y\n".toList
           "diffs").read? ["diffs", "0xA", "0xB"]
           = some (compute_diff "x\n".toList "y\n".toList)
       ∧ ((⟨[], []⟩ : FS).files = [] →
           (write_diff ⟨[], []⟩ "0xA" "x\n".toList "0xB" "y\n".toList
             "diffs").files
             = [(["diffs", "0xA", "0xA" ++ "_code"], "x\n".toList),
                (["diffs", "0xA", "0xB"],
                  compute_diff "x\n".toList "y\n".toList)])
       ∧ ((⟨[], []⟩ : FS).dirs = [] →
           (write_diff ⟨[], []⟩ "0xA" "x\n".toList "0xB" "y\n".toList
             "diffs").dirs = [["diffs", "0xA"]]))) :=
  ⟨by decide, claim_C7_diff_store ⟨[], []⟩ "0xA" "0xB" "diffs"
    "x\n".toList "y\n".toList (by decide)⟩

def attC8 : Nat → Except PyExc String := fun i =>
  if i = 0 then Except.error (PyExc.httpError 404) else Except.ok "B"

/-- C8 (amended): `fetch` does not classify failures at all — every caught
exception, connection-level, TLS, or an `HTTPError` for a definitive
status such as 404, triggers another attempt; no failing result is
returned immediately. -/
theorem claim_C8_every_exception_retried
    (attempts : Nat → Except PyExc String) (e : PyExc) (s : String)
    (h0 : attempts 0 = Except.error e) (h1 : attempts 1 = Except.ok s) :
    fetch attempts 5 = (s, 2) := by
  have hf : ∀ j, j < 1 → ∀ s2, ¬ attempts (0 + j) = Except.ok s2 := by
    intro j hj s2
    have hj0 : j = 0 := by omega
    subst hj0
    show ¬ attempts 0 = Except.ok s2
    rw [h0]
    intro hc
    exact Except.noConfusion hc
  exact fetchLoop_succ attempts 1 5 0 s hf h1 (by omega)

theorem claim_C8_witness :
    attC8 0 = Except.error (PyExc.httpError 404) ∧
    attC8 1 = Except.ok "B" ∧
    fetch attC8 5 = ("B", 2) :=
  ⟨rfl, rfl,
   claim_C8_every_exception_retried attC8 (PyExc.httpError 404) "B" rfl rfl⟩

/-- C8, the original claim refuted: an `HTTPError` with the definitive
status 404 — not a recoverable condition — is not returned to the caller
after the first attempt: a second attempt runs and its result is
returned. -/
theorem claim_C8_counterexample :
    fetch attC8 5 = ("B", 2) ∧ ¬ (fetch attC8 5).2 = 1 := by
  decide

/-- C9 (amended): from an empty destination directory, when every selected
basename occurs at most twice in the selection and no selected basename is
another selected basename with `"_0"` appended, the copy loop never
replaces an existing destination file. -/
theorem claim_C9_no_overwrite (sel : List (String × String))
    (h2 : ∀ m ∈ sel.map (fun pc => basename pc.1),
      (sel.map (fun pc => basename pc.1)).count m ≤ 2)
    (h3 : ∀ m1 ∈ sel.map (fun pc => basename pc.1),
      ∀ m2 ∈ sel.map (fun pc => basename pc.1), ¬ m1 = m2 ++ "_0") :
    (copy_diffs sel ⟨[], false⟩).overwrote = false :=
  copy_diffs_invariant _ h2 h3 sel [] ⟨[], false⟩ rfl rfl (by
    intro k
    constructor
    · intro hk
      simp [lookupStr] at hk
    · intro hk
      rcases hk with hk | ⟨m, hm, -⟩
      · simp at hk
      · simp at hm)

theorem claim_C9_witness :
    (∀ m ∈ ([("a/x", "1"), ("b/x", "2"), ("c/y", "3")].map
        (fun pc => basename pc.1)),
      ([("a/x", "1"), ("b/x", "2"), ("c/y", "3")].map
        (fun pc => basename pc.1)).count m ≤ 2) ∧
    (∀ m1 ∈ ([("a/x", "1"), ("b/x", "2"), ("c/y", "3")].map
        (fun pc => basename pc.1)),
      ∀ m2 ∈ ([("a/x", "1"), ("b/x", "2"), ("c/y", "3")].map
        (fun pc => basename pc.1)), ¬ m1 = m2 ++ "_0") ∧
    (copy_diffs [("a/x", "1"), ("b/x", "2"), ("c/y", "3")]
        ⟨[], false⟩).overwrote = false :=
  ⟨by decide, by decide,
   claim_C9_no_overwrite [("a/x", "1"), ("b/x", "2"), ("c/y", "3")]
     (by decide) (by decide)⟩

/-- C9, the original claim refuted: with three sources sharing the
basename `n`, the third copy lands on `n ++ "_0"`, which the second copy
already created — the utility does overwrite an existing destination
file. -/
theorem claim_C9_counterexample :
    (copy_diffs [("d/n", "c1"), ("e/n", "c2"), ("f/n", "c3")]
        ⟨[], false⟩).overwrote = true ∧
    lookupStr (copy_diffs [("d/n", "c1"), ("e/n", "c2"), ("f/n", "c3")]
        ⟨[], false⟩).files "n_0" = some "c3" := by
  decide

def feC10 : String → Option (List Char) := fun _ => none

def attC10 : Nat → Except PyExc String :=
  fun _ => Except.error PyExc.opensslError

/-- C10: when the fetched content is empty — in particular when `fetch` has
exhausted its attempts and returned the empty-string sentinel — the
extractor raises the same `ValueError` "not found" as for a genuinely
missing artifact, and never returns a source text: total fetch failure and
a missing source are indistinguishable at the extractor's interface. -/
theorem claim_C10_fetch_failure_indistinguishable
    (findEditor : String → Option (List Char)) (address : String)
    (attempts : Nat → Except PyExc String)
    (hempty : findEditor "" = none)
    (hfail : ∀ j, j < 5 → ∀ s, ¬ attempts j = Except.ok s) :
    extract_code_fetched findEditor attempts address
        = Except.error ("Solidity code not found for: " ++ address)
    ∧ (∀ content, findEditor content = none →
        extract_code_of_content findEditor address content
          = Except.error ("Solidity code not found for: " ++ address))
    ∧ (∀ t, ¬ extract_code_fetched findEditor attempts address
        = Except.ok t) := by
  have hfetch : fetch attempts 5 = ("", 5) := by
    have h := fetchLoop_fail attempts 5 0 (by
      intro j hj s
      rw [Nat.zero_add]
      exact hfail j hj s)
    exact h
  have hmiss : ∀ content, findEditor content = none →
      extract_code_of_content findEditor address content
        = Except.error ("Solidity code not found for: " ++ address) := by
    intro content hc
    unfold extract_code_of_content
    rw [hc]
  have hcontent : extract_code_fetched findEditor attempts address
      = extract_code_of_content findEditor address "" := by
    unfold extract_code_fetched
    rw [hfetch]
  refine ⟨?_, hmiss, ?_⟩
  · rw [hcontent]
    exact hmiss "" hempty
  · intro t h
    rw [hcontent, hmiss "" hempty] at h
    exact Except.noConfusion h

theorem claim_C10_witness :
    feC10 "" = none ∧
    (∀ j, j < 5 → ∀ s, ¬ attC10 j = Except.ok s) ∧
    (extract_code_fetched feC10 attC10 "0xdead"
        = Except.error ("Solidity code not found for: " ++ "0xdead")
     ∧ (∀ content, feC10 content = none →
         extract_code_of_content feC10 "0xdead" content
           = Except.error ("Solidity code not found for: " ++ "0xdead"))
     ∧ (∀ t, ¬ extract_code_fetched feC10 attC10 "0xdead"
         = Except.ok t)) :=
  ⟨rfl, fun j hj s hc => Except.noConfusion hc,
   claim_C10_fetch_failure_indistinguishable feC10 "0xdead" attC10 rfl
     (fun j hj s hc => Except.noConfusion hc)⟩

end Difeth
